import Mathlib

/-!
Verification development for the AdonisJS routes "go to definition" provider
(src/definitionProvider.ts, second variant, plus the activation wrapper).

The provider is shallowly embedded here:
* strings are modelled as `List Char` with executable primitives mirroring the
  JavaScript string methods used by the source (`startsWith`, `includes`,
  `endsWith`, `replace` with a plain-string pattern replaces the first
  occurrence, `replace` with a `$`-anchored regex replaces the suffix);
* Node path functions (`path.normalize`, `path.dirname`, `path.join`,
  `path.resolve`) are modelled in their POSIX form with `path.sep = '/'`;
* the TypeScript syntax tree is an arena of nodes addressed by index, each
  node storing its parent index, ordered child indices and the fields the
  provider inspects; the external parser (`ts.createSourceFile`) is a
  parameter of the file-system model;
* the filesystem and the editor workspace are oracles
  (existence, modification time, content, open documents); the fallible
  operations the code leaves outside a `try` block (`fs.statSync`,
  `JSON.parse` composed with `readFileSync` for the manifest) are modelled
  with `Except`.
-/

namespace AdonisGoto

/-- Convert a Lean string literal into the character-list representation used
throughout this development. -/
def str (s : String) : List Char := s.data

/-- JavaScript `pat.startsWith` test: is `pat` a prefix of `s`. -/
def isPreL : List Char → List Char → Bool
  | [], _ => true
  | _ :: _, [] => false
  | p :: ps, c :: cs => p == c && isPreL ps cs

/-- JavaScript `s.includes(pat)`: does `pat` occur as a contiguous substring. -/
def hasSub (pat : List Char) : List Char → Bool
  | [] => isPreL pat []
  | c :: cs => isPreL pat (c :: cs) || hasSub pat cs

/-- JavaScript `s.endsWith(pat)`. -/
def endsW (pat s : List Char) : Bool :=
  isPreL pat.reverse s.reverse

/-- JavaScript `s.replace(pat, rep)` with a plain-string pattern: replaces the
first occurrence only; returns `s` unchanged when `pat` does not occur. -/
def replaceFirst (pat rep : List Char) : List Char → List Char
  | [] => if isPreL pat [] then rep else []
  | c :: cs =>
    if isPreL pat (c :: cs) then rep ++ (c :: cs).drop pat.length
    else c :: replaceFirst pat rep cs

/-- JavaScript `s.replace(/pat$/, rep)`: replaces the suffix occurrence when
`s` ends with `pat`, otherwise returns `s` unchanged. -/
def replaceSuffix (pat rep s : List Char) : List Char :=
  if endsW pat s then s.take (s.length - pat.length) ++ rep else s

/-- ASCII lowercase letter test, the `[a-z]` character class. -/
def isLowerAZ (c : Char) : Bool := 'a' ≤ c && c ≤ 'z'

/-- ASCII uppercase letter test, the `[A-Z]` character class. -/
def isUpperAZ (c : Char) : Bool := 'A' ≤ c && c ≤ 'Z'

/-- Global regex replace `/([a-z])([A-Z])/g → "$1_$2"`: scan left to right; on
a lowercase-uppercase pair emit both characters with an underscore between and
resume after the pair (the regex engine resumes after the matched text; the
second matched character is uppercase so it can never start a new match, hence
consuming it is equivalent to rescanning it). -/
def snakeStep : List Char → List Char
  | [] => []
  | [c] => [c]
  | c1 :: c2 :: rest =>
    if isLowerAZ c1 && isUpperAZ c2 then c1 :: '_' :: c2 :: snakeStep rest
    else c1 :: snakeStep (c2 :: rest)

/-- JavaScript `s.toLowerCase()` restricted to ASCII (all names in scope are
ASCII identifiers). -/
def toLowerL (s : List Char) : List Char := s.map Char.toLower

/-- The PascalCase to snake_case conversion of `resolveControllerPath`:
`name.replace(/([a-z])([A-Z])/g, "$1_$2").toLowerCase()`. -/
def snakeCase (s : List Char) : List Char := toLowerL (snakeStep s)

/-! ### POSIX path model (`path.sep = '/'`) -/

/-- Split a string on `'/'`; mirrors `String.prototype.split("/")`: always
returns at least one (possibly empty) segment. -/
def splitC : List Char → List (List Char)
  | [] => [[]]
  | c :: cs =>
    if c = '/' then [] :: splitC cs
    else
      match splitC cs with
      | s :: ss => (c :: s) :: ss
      | [] => [[c]]

/-- Join segments with `'/'`. -/
def joinSegs : List (List Char) → List Char
  | [] => []
  | [s] => s
  | s :: rest => s ++ '/' :: joinSegs rest

/-- Normalisation core: drop empty and `"."` segments, let `".."` pop the
previous real segment (at the root of an absolute path a `".."` is dropped;
leading `".."`s of a relative path are kept). `acc` holds processed segments
in reverse. -/
def normSegs (isAbs : Bool) : List (List Char) → List (List Char) → List (List Char)
  | acc, [] => acc.reverse
  | acc, s :: rest =>
    if s = [] ∨ s = ['.'] then normSegs isAbs acc rest
    else if s = ['.', '.'] then
      match acc with
      | [] => if isAbs then normSegs isAbs [] rest else normSegs isAbs [s] rest
      | t :: ts =>
        if t = ['.', '.'] then normSegs isAbs (s :: t :: ts) rest
        else normSegs isAbs ts rest
    else normSegs isAbs (s :: acc) rest

/-- `path.posix.normalize` (trailing-slash preservation omitted; no caller
distinguishes a trailing slash). -/
def posixNormalize (p : List Char) : List Char :=
  if p = [] then str "." else
  let isAbs := p.head? = some '/'
  let body := joinSegs (normSegs isAbs [] (splitC p))
  if isAbs then '/' :: body
  else if body = [] then str "." else body

/-- `path.posix.dirname`. -/
def posixDirname (p : List Char) : List Char :=
  match (p.reverse.dropWhile (· ≠ '/')) with
  | [] => str "."
  | [_] => str "/"
  | _ :: rest => rest.reverse

/-- `path.posix.join`: concatenate the non-empty parts with `'/'` and
normalise; all parts empty gives `"."`. -/
def posixJoinList (parts : List (List Char)) : List Char :=
  let joined := joinSegs (parts.filter (· ≠ []))
  if joined = [] then str "." else posixNormalize joined

def posixJoin (a b : List Char) : List Char := posixJoinList [a, b]

def posixJoin3 (a b c : List Char) : List Char := posixJoinList [a, b, c]

/-- `path.posix.resolve(root, p)` for the uses in scope (the right-hand
argument absolute, or relative to an absolute `root`). -/
def posixResolve (root p : List Char) : List Char :=
  if p.head? = some '/' then posixNormalize p
  else posixNormalize (root ++ '/' :: p)

/-! ### Syntax tree arena

A parsed file is an arena of nodes addressed by index.  Each node carries the
node-kind tag and exactly the fields the provider inspects: the parent index,
the ordered child indices (the traversal order of `getChildren` and
`forEachChild`), the callee of a call expression, the argument or element
list, the declaration name node, the initializer (also used for the body of
an arrow function), the `export` and `default` modifiers, the identifier or
string-literal text, and the `[getStart, getEnd]` span.  Upward `parent`
walks in the source terminate because parse trees are finite and acyclic;
here they are written with fuel `nodes.length + 1`, which suffices for every
arena whose parent indices decrease (as holds for the preorder-numbered
arenas the parser produces, and as the well-formedness predicate below
captures). -/

inductive NodeKind
  | identifier | stringLiteral | callExpression | propertyAccess
  | arrayLiteral | arrowFunction | functionExpr
  | variableDeclaration | classDeclaration | methodDeclaration
  | functionDeclaration | propertyDeclaration | importKeyword | other
  deriving DecidableEq, Repr

structure TsNode where
  kind : NodeKind := .other
  text : List Char := []
  parent : Option Nat := none
  children : List Nat := []
  callee : Option Nat := none
  propName : List Char := []
  args : List Nat := []
  nameNode : Option Nat := none
  initializer : Option Nat := none
  isExported : Bool := false
  isDefaultExport : Bool := false
  start : Nat := 0
  stop : Nat := 0
  deriving DecidableEq, Repr

structure Tree where
  nodes : List TsNode
  deriving DecidableEq, Repr

def Tree.node? (t : Tree) (i : Nat) : Option TsNode := t.nodes[i]?

def Tree.fuel (t : Tree) : Nat := t.nodes.length + 1

/-- Text of the node at an index (empty when the index is out of range). -/
def textOf (t : Tree) (i : Nat) : List Char :=
  ((t.node? i).map (·.text)).getD []

/-- First index (JavaScript `Array.prototype.indexOf`) of `x` in `l`, as an
option rather than `-1`. -/
def idxOf? (x : Nat) : List Nat → Option Nat
  | [] => none
  | y :: ys => if y = x then some 0 else (idxOf? x ys).map (· + 1)

/-- Bounded well-formedness of an arena, as produced by a real parse:
parent indices strictly precede their children (preorder numbering), and a
node listed among the elements or arguments of another has that node as its
parent. -/
def wfTree (t : Tree) : Bool :=
  (List.range t.nodes.length).all fun i =>
    match t.nodes[i]? with
    | none => true
    | some n =>
      (match n.parent with
       | none => true
       | some p => decide (p < i)) &&
      n.args.all fun j =>
        match t.nodes[j]? with
        | some m => m.parent == some i
        | none => false

/-! ### Position Locator (`findNodeAtPosition`) -/

/-- `findNodeAtPosition`: descend into the first child whose span contains
the offset (span test `getStart ≤ pos ≤ getEnd`, both bounds inclusive as in
the source); stop at a node none of whose children contains the offset. -/
def findNodeAt (t : Tree) : Nat → Nat → Nat → Option Nat
  | 0, _, _ => none
  | fuel + 1, i, pos =>
    match t.node? i with
    | none => none
    | some n =>
      if n.start ≤ pos ∧ pos ≤ n.stop then
        match n.children.findSome? (fun c => findNodeAt t fuel c pos) with
        | some r => some r
        | none => some i
      else none

/-! ### Click contexts and handler classification -/

inductive ClickContext
  | controllerVariable (variableName : List Char) (methodName : Option (List Char))
  | methodString (controllerName methodName : List Char)
  | controllerImportPath (importPath : List Char)
  | routesModule (moduleName : List Char)
  deriving DecidableEq, Repr

inductive HandlerInfo
  | controller (controllerName methodName : List Char)
  | controllerVariable (variableName : List Char)
  deriving DecidableEq, Repr

/-- The fixed routing-verb set of `findRouterCall`. -/
def routingVerbs : List (List Char) :=
  [str "get", str "post", str "put", str "patch", str "delete",
   str "route", str "resource", str "group"]

/-- One step test of `findRouterCall`: is this node a call expression whose
callee is a property access with a routing-verb name. -/
def isRouterCallNode (t : Tree) (n : TsNode) : Bool :=
  n.kind = .callExpression &&
  (match n.callee.bind t.node? with
   | some c => c.kind = .propertyAccess && routingVerbs.contains c.propName
   | none => false)

/-- `findRouterCall`: walk the parent chain (starting at the node itself) to
the first call expression whose callee property name is a routing verb. -/
def findRouterCallAux (t : Tree) : Nat → Option Nat → Option Nat
  | _, none => none
  | 0, some _ => none
  | fuel + 1, some cur =>
    match t.node? cur with
    | none => none
    | some n =>
      if isRouterCallNode t n then some cur
      else findRouterCallAux t fuel n.parent

def findRouterCall (t : Tree) (i : Nat) : Option Nat :=
  findRouterCallAux t t.fuel (some i)

/-- `findRoutesGroupCall`: walk the parent chain to the first call expression
whose callee property name is exactly `group`. -/
def findRoutesGroupCallAux (t : Tree) : Nat → Option Nat → Option Nat
  | _, none => none
  | 0, some _ => none
  | fuel + 1, some cur =>
    match t.node? cur with
    | none => none
    | some n =>
      if n.kind = .callExpression &&
         (match n.callee.bind t.node? with
          | some c => c.kind = .propertyAccess && c.propName = str "group"
          | none => false) then some cur
      else findRoutesGroupCallAux t fuel n.parent

def findRoutesGroupCall (t : Tree) (i : Nat) : Option Nat :=
  findRoutesGroupCallAux t t.fuel (some i)

/-- `parseHandlerArgument`: a two-element `[identifier, string-literal]`
array gives an inline controller handler; an arrow function or function
expression is explicitly not navigable; a bare identifier is a controller
factory variable. -/
def parseHandlerArgument (t : Tree) (j : Nat) : Option HandlerInfo :=
  match t.node? j with
  | none => none
  | some a =>
    let tupleRes : Option HandlerInfo :=
      if a.kind = .arrayLiteral ∧ a.args.length = 2 then
        match a.args[0]?.bind t.node?, a.args[1]?.bind t.node? with
        | some c, some m =>
          if c.kind = .identifier ∧ m.kind = .stringLiteral then
            some (.controller c.text m.text)
          else none
        | _, _ => none
      else none
    match tupleRes with
    | some r => some r
    | none =>
      if a.kind = .arrowFunction ∨ a.kind = .functionExpr then none
      else if a.kind = .identifier then some (.controllerVariable a.text)
      else none

/-- The chained-call climb of `extractHandlerFromRouterCall`: while the
parent is a call expression, move to it and, at the first one with at least
two arguments, classify its second argument (whatever the classification,
including failure). -/
def extractHandlerClimb (t : Tree) : Nat → Nat → Option HandlerInfo
  | 0, _ => none
  | fuel + 1, cur =>
    match t.node? cur with
    | none => none
    | some n =>
      match n.parent with
      | none => none
      | some p =>
        match t.node? p with
        | none => none
        | some pn =>
          if pn.kind = .callExpression then
            if pn.args.length ≥ 2 then
              match pn.args[1]? with
              | some a => parseHandlerArgument t a
              | none => none
            else extractHandlerClimb t fuel p
          else none

/-- `extractHandlerFromRouterCall`: classify the call's second argument, or
climb the chain of enclosing call expressions to find one with two
arguments. -/
def extractHandlerFromRouterCall (t : Tree) (c : Nat) : Option HandlerInfo :=
  match t.node? c with
  | none => none
  | some n =>
    if n.args.length ≥ 2 then
      match n.args[1]? with
      | some a => parseHandlerArgument t a
      | none => none
    else extractHandlerClimb t t.fuel c

/-- One step test of `isMethodStringInTuple`: is `node` the second element
(JavaScript `elements.indexOf(node) === 1`) of this two-element array
literal whose first element is an identifier; if so give that identifier's
text. -/
def tupleHitCtrl (t : Tree) (node : Nat) (n : TsNode) : Option (List Char) :=
  if n.kind = .arrayLiteral ∧ n.args.length = 2 ∧ idxOf? node n.args = some 1 then
    match n.args[0]?.bind t.node? with
    | some c => if c.kind = .identifier then some c.text else none
    | none => none
  else none

/-- `isMethodStringInTuple`: walk the parent chain from the string literal
looking for a two-element array literal of which it is the second element
with an identifier first element. -/
def tupleWalk (t : Tree) (node : Nat) : Nat → Option Nat → Option (List Char)
  | _, none => none
  | 0, some _ => none
  | fuel + 1, some cur =>
    match t.node? cur with
    | none => none
    | some n =>
      match tupleHitCtrl t node n with
      | some txt => some txt
      | none => tupleWalk t node fuel n.parent

def isMethodStringInTuple (t : Tree) (i : Nat) : Option (List Char) :=
  tupleWalk t i t.fuel (some i)

/-- Condition of the second branch of `analyzeIdentifierClick`: the clicked
identifier is the first element of its own parent two-element array literal
whose second element is a string literal. -/
def tupleFirstCond (t : Tree) (i : Nat) : Bool :=
  match (t.node? i).bind (·.parent) with
  | none => false
  | some p =>
    match t.node? p with
    | none => false
    | some pn =>
      pn.kind = .arrayLiteral && pn.args.length = 2 &&
      pn.args[0]? = some i &&
      (match pn.args[1]?.bind t.node? with
       | some m => m.kind = .stringLiteral
       | none => false)

/-- `analyzeIdentifierClick`: inside a routing-verb call, a bare-identifier
handler yields a `controller_variable` context named after the handler
argument; otherwise, a click on the first element of a `[identifier,
string]` tuple yields a `controller_variable` context named after the
clicked identifier; failing both, a click inside a `group` call yields a
`routes_module` context. -/
def analyzeIdentifierClick (t : Tree) (i : Nat) : Option ClickContext :=
  let viaRouter : Option ClickContext :=
    match findRouterCall t i with
    | none => none
    | some c =>
      match extractHandlerFromRouterCall t c with
      | none => none
      | some h =>
        match h with
        | .controllerVariable v =>
          if v ≠ [] then some (.controllerVariable v none)
          else if tupleFirstCond t i then some (.controllerVariable (textOf t i) none)
          else none
        | _ =>
          if tupleFirstCond t i then some (.controllerVariable (textOf t i) none)
          else none
  match viaRouter with
  | some r => some r
  | none =>
    match findRoutesGroupCall t i with
    | some _ => some (.routesModule (textOf t i))
    | none => none

/-- `analyzeStringLiteralClick`: a method-name string in a tuple, else a
`#controllers/` import path, else nothing. -/
def analyzeStringLiteralClick (t : Tree) (i : Nat) : Option ClickContext :=
  match t.node? i with
  | none => none
  | some n =>
    match isMethodStringInTuple t i with
    | some cn => some (.methodString cn n.text)
    | none =>
      if isPreL (str "#controllers/") n.text then
        some (.controllerImportPath n.text)
      else none

/-- `analyzeClickContext`: dispatch on the located node's kind. -/
def analyzeClickContext (t : Tree) (i : Nat) : Option ClickContext :=
  match t.node? i with
  | none => none
  | some n =>
    if n.kind = .identifier then analyzeIdentifierClick t i
    else if n.kind = .stringLiteral then analyzeStringLiteralClick t i
    else none

/-! ### Reference Tracer (`findControllerImportPath`) -/

/-- Is this a call expression whose callee token is the `import` keyword. -/
def isImportCall (t : Tree) (n : TsNode) : Bool :=
  n.kind = .callExpression &&
  (match n.callee.bind t.node? with
   | some k => k.kind = .importKeyword
   | none => false)

/-- The string argument of an import call, when it is a string literal. -/
def importCallArg (t : Tree) (n : TsNode) : Option (List Char) :=
  match n.args[0]?.bind t.node? with
  | some a => if a.kind = .stringLiteral then some a.text else none
  | none => none

def importInitMatch (t : Tree) (vname : List Char) (n : TsNode) : Option (List Char) :=
  if n.kind = .variableDeclaration &&
     (match n.nameNode.bind t.node? with
      | some nm => nm.kind = .identifier && nm.text = vname
      | none => false) then
    match n.initializer.bind t.node? with
    | some init =>
      if init.kind = .arrowFunction then
        match init.initializer.bind t.node? with
        | some body =>
          if isImportCall t body then importCallArg t body else none
        | none => none
      else if isImportCall t init then importCallArg t init
      else none
    | none => none
  else none

/-- `findControllerImportPath`: preorder scan (`ts.forEachChild`) for the
first matching declaration.  `forEachChild` and the final `|| null` treat an
empty-string result as falsy, so an empty import string never escapes a
child visit. -/
def ficVisit (t : Tree) (vname : List Char) : Nat → Nat → Option (List Char)
  | 0, _ => none
  | fuel + 1, i =>
    match t.node? i with
    | none => none
    | some n =>
      match importInitMatch t vname n with
      | some txt => some txt
      | none =>
        n.children.findSome? fun c =>
          match ficVisit t vname fuel c with
          | some v => if v = [] then none else some v
          | none => none

def findControllerImportPath (t : Tree) (vname : List Char) : Option (List Char) :=
  match ficVisit t vname t.fuel 0 with
  | some v => if v = [] then none else some v
  | none => none

/-! ### Filesystem, manifest and cache models -/

/-- The `imports` object of the manifest: an association list of string keys
to string values (JSON object keys are unique; lookup takes the first
match). -/
abbrev ImportsMap := List (List Char × List Char)

/-- The parsed manifest as far as the provider reads it: the optional
`imports` field. -/
structure PkgJson where
  imports : Option ImportsMap
  deriving DecidableEq, Repr

instance {ε α : Type} [DecidableEq ε] [DecidableEq α] :
    DecidableEq (Except ε α) := fun a b =>
  match a, b with
  | .error e1, .error e2 => decidable_of_iff (e1 = e2) (by simp)
  | .error _, .ok _ => isFalse (by simp)
  | .ok _, .error _ => isFalse (by simp)
  | .ok a1, .ok a2 => decidable_of_iff (a1 = a2) (by simp)

/-- Filesystem and workspace oracle.  `mtimeOf` models `fs.statSync` (which
throws when the file is gone, hence `Except`); `manifestOf` models the
composite `JSON.parse(fs.readFileSync p)` whose failure the cache loader
catches; `parseFn` is the external `ts.createSourceFile` applied to a text
(total, best-effort); `openDoc` is `vscode.workspace.textDocuments` (the
text of the file when an editor holds it open, possibly differing from the
disk `content`). -/
structure FileSys where
  exists_ : List Char → Bool
  mtimeOf : List Char → Except Unit Int
  content : List Char → List Char
  manifestOf : List Char → Except Unit PkgJson
  parseFn : List Char → Tree
  openDoc : List Char → Option (List Char)

/-- The provider's two cache maps (`importsCache`, `cacheTimestamps`). -/
structure CacheState where
  importsCache : List (List Char × ImportsMap) := []
  timestamps : List (List Char × Int) := []
  deriving DecidableEq, Repr

/-- Association-list lookup (JavaScript `Map.prototype.get`). -/
def lookupA {α : Type} : List (List Char × α) → List Char → Option α
  | [], _ => none
  | (k2, v) :: rest, k => if k2 = k then some v else lookupA rest k

/-- Association-list update (JavaScript `Map.prototype.set`). -/
def setA {α : Type} : List (List Char × α) → List Char → α → List (List Char × α)
  | [], k, v => [(k, v)]
  | (k2, v2) :: rest, k, v =>
    if k2 = k then (k, v) :: rest else (k2, v2) :: setA rest k v

/-- JavaScript string truthiness for an optional lookup result: absent and
the empty string are both falsy. -/
def strTruthy : Option (List Char) → Option (List Char)
  | some v => if v = [] then none else some v
  | none => none

def pkgJsonPath (root : List Char) : List Char :=
  posixJoin root (str "package.json")

/-- `getPackageImports`: stat the manifest (a throw propagates), and when
the cached timestamp differs, re-read and re-parse it; a successful parse
caches `imports || {}` and records the timestamp, a failed parse caches `{}`
but leaves the timestamp alone.  The returned `Nat` counts the parse
attempts made by this call (0 on a cache hit, 1 otherwise). -/
def getPackageImports (fs : FileSys) (st : CacheState) (root : List Char) :
    Except Unit (ImportsMap × CacheState × Nat) :=
  let key := pkgJsonPath root
  match fs.mtimeOf key with
  | .error e => .error e
  | .ok m =>
    if lookupA st.timestamps key ≠ some m then
      let st' : CacheState :=
        match fs.manifestOf key with
        | .ok pkg =>
          { importsCache := setA st.importsCache key (pkg.imports.getD []),
            timestamps := setA st.timestamps key m }
        | .error _ =>
          { importsCache := setA st.importsCache key [],
            timestamps := st.timestamps }
      .ok ((lookupA st'.importsCache key).getD [], st', 1)
    else
      .ok ((lookupA st.importsCache key).getD [], st, 0)

/-! ### Supported-file guard and Project Root Finder -/

/-- `isSupportedFile`: the normalized path contains a `/routes/` directory
component or ends with `/start/routes.ts` (`path.sep` is `'/'`). -/
def isSupportedFile (filePath : List Char) : Bool :=
  let np := posixNormalize filePath
  hasSub (str "/routes/") np || endsW (str "/start/routes.ts") np

/-- `findProjectRoot`: walk parent directories from the file's directory
until one contains `package.json`; stop unfound at the filesystem root
(where `dirname` is a fixed point).  Each loop iteration either reaches the
fixed point or strictly shortens the path, so `length + 2` steps suffice. -/
def findProjectRootAux (fs : FileSys) : Nat → List Char → Option (List Char)
  | 0, _ => none
  | fuel + 1, dir =>
    if dir = posixDirname dir then none
    else if fs.exists_ (posixJoin dir (str "package.json")) then some dir
    else findProjectRootAux fs fuel (posixDirname dir)

def findProjectRoot (fs : FileSys) (filePath : List Char) : Option (List Char) :=
  findProjectRootAux fs (filePath.length + 2) (posixDirname filePath)

/-! ### Locations -/

structure Pos where
  line : Nat
  character : Nat
  deriving DecidableEq, Repr

def pos0 : Pos := ⟨0, 0⟩

structure Loc where
  path : List Char
  rangeStart : Pos
  rangeEnd : Pos
  deriving DecidableEq, Repr

/-- Zero-based line/character of a character offset in a text
(`getLineAndCharacterOfPosition` / `TextDocument.positionAt`). -/
def lcAux : List Char → Nat → Nat → Nat → Pos
  | _, 0, line, col => ⟨line, col⟩
  | [], _ + 1, line, col => ⟨line, col⟩
  | c :: cs, k + 1, line, col =>
    if c = '\n' then lcAux cs k (line + 1) 0 else lcAux cs k line (col + 1)

def lineCharAt (text : List Char) (off : Nat) : Pos := lcAux text off 0 0

def spanStart (t : Tree) (i : Nat) : Nat := ((t.node? i).map (·.start)).getD 0

def spanStop (t : Tree) (i : Nat) : Nat := ((t.node? i).map (·.stop)).getD 0

/-! ### Target Resolver -/

/-- First existing path of a candidate list. -/
def firstExisting (fs : FileSys) : List (List Char) → Option (List Char)
  | [] => none
  | p :: ps => if fs.exists_ p then some p else firstExisting fs ps

/-- The extension/index candidate order applied to a resolved path: literal
first-occurrence `.js`→`.ts` substitution, the path unchanged, then the two
suffix-anchored index variants. -/
def extCandidates (resolvedPath : List Char) : List (List Char) :=
  [replaceFirst (str ".js") (str ".ts") resolvedPath,
   resolvedPath,
   replaceSuffix (str ".ts") (str "/index.ts") resolvedPath,
   replaceSuffix (str ".js") (str "/index.js") resolvedPath]

/-- `resolveControllerFromImportPath` with the alias table already loaded:
an exact manifest key wins (and its failure is final); otherwise only a
`#controllers/` path is wildcard-resolved through the `#controllers/*`
mapping, with a directory-base fallback when the mapping has no `*`. -/
def resolveControllerFromImportPathPure (imports : ImportsMap) (fs : FileSys)
    (root ip : List Char) : Option Loc :=
  match strTruthy (lookupA imports ip) with
  | some mapping =>
    (firstExisting fs (extCandidates (posixResolve root mapping))).map
      (fun p => ⟨p, pos0, pos0⟩)
  | none =>
    if isPreL (str "#controllers/") ip then
      match strTruthy (lookupA imports (str "#controllers/*")) with
      | none => none
      | some cm =>
        let controllerModule := ip.drop (str "#controllers/").length
        if cm.contains '*' then
          (firstExisting fs (extCandidates
            (posixResolve root (replaceFirst (str "*") controllerModule cm)))).map
            (fun p => ⟨p, pos0, pos0⟩)
        else
          let basePath := posixResolve root (posixDirname cm)
          (firstExisting fs
            [posixJoin basePath (controllerModule ++ str ".ts"),
             posixJoin basePath (controllerModule ++ str ".js"),
             posixJoin3 basePath controllerModule (str "index.ts"),
             posixJoin3 basePath controllerModule (str "index.js")]).map
            (fun p => ⟨p, pos0, pos0⟩)
    else none

/-- `resolveControllerPath` with the alias table already loaded: the
`#controllers/*` mapping's directory is the base; probe the snake_case and
PascalCase candidate list in order. -/
def resolveControllerPathPure (imports : ImportsMap) (fs : FileSys)
    (root controllerName : List Char) : Option (List Char) :=
  match strTruthy (lookupA imports (str "#controllers/*")) with
  | none => none
  | some cm =>
    let basePath := posixResolve root (posixDirname cm)
    let snakeCaseName := snakeCase controllerName
    firstExisting fs
      [posixJoin basePath (snakeCaseName ++ str ".ts"),
       posixJoin basePath (snakeCaseName ++ str ".js"),
       posixJoin3 basePath controllerName (str "index.ts"),
       posixJoin3 basePath controllerName (str "index.js"),
       posixJoin basePath (controllerName ++ str ".ts"),
       posixJoin basePath (controllerName ++ str ".js")]

/-! ### Member Locator -/

structure Cand where
  nameIdx : Nat
  priority : Nat
  deriving DecidableEq, Repr

/-- Priority of a method declaration: walk the parent chain; the first class
declaration met decides (1 when it is an exported default class, 2
otherwise); no class in the chain leaves the default 2. -/
def methodPriority (t : Tree) : Nat → Option Nat → Nat
  | 0, _ => 2
  | fuel + 1, parent? =>
    match parent? with
    | none => 2
    | some p =>
      match t.node? p with
      | none => 2
      | some pn =>
        if pn.kind = .classDeclaration && pn.isExported && pn.isDefaultExport then 1
        else if pn.kind = .classDeclaration then 2
        else methodPriority t fuel pn.parent

/-- `node.name && ts.isIdentifier(node.name) && node.name.text === m`. -/
def nameMatches (t : Tree) (n : TsNode) (m : List Char) : Bool :=
  match n.nameNode.bind t.node? with
  | some nm => nm.kind = .identifier && nm.text = m
  | none => false

/-- Candidate collection of `findBestMethodNameNode`, in document (preorder)
order: matching method declarations with their class-context priority,
matching property declarations at priority 2, matching exported function
declarations at priority 3. -/
def bestCands (t : Tree) (m : List Char) : Nat → Nat → List Cand
  | 0, _ => []
  | fuel + 1, i =>
    match t.node? i with
    | none => []
    | some n =>
      let here : List Cand :=
        if n.kind = .methodDeclaration && nameMatches t n m then
          match n.nameNode with
          | some nm => [⟨nm, methodPriority t t.fuel n.parent⟩]
          | none => []
        else if n.kind = .propertyDeclaration && nameMatches t n m then
          match n.nameNode with
          | some nm => [⟨nm, 2⟩]
          | none => []
        else if n.kind = .functionDeclaration && nameMatches t n m && n.isExported then
          match n.nameNode with
          | some nm => [⟨nm, 3⟩]
          | none => []
        else []
      here ++ (n.children.map (bestCands t m fuel)).flatten

/-- First-in-order candidate of minimal priority.  The source sorts the
candidate array with the stable `Array.prototype.sort` under the comparator
`a.priority - b.priority` and takes element 0, which selects exactly the
earliest candidate whose priority is minimal; this function computes that
selection directly. -/
def pickBest : List Cand → Option Cand
  | [] => none
  | c :: cs =>
    match pickBest cs with
    | none => some c
    | some d => if d.priority < c.priority then some d else some c

/-- `findBestMethodNameNode`: the selected declaration's name-token node. -/
def findBestMethodNameNode (t : Tree) (m : List Char) : Option Nat :=
  (pickBest (bestCands t m t.fuel 0)).map (·.nameIdx)

/-- `findMethodInControllerFile`: read and parse the target file, select the
best name node, convert its span to line/character positions. -/
def findMethodInControllerFile (fs : FileSys) (controllerPath m : List Char) :
    Option Loc :=
  let text := fs.content controllerPath
  let t := fs.parseFn text
  match findBestMethodNameNode t m with
  | none => none
  | some nameIdx =>
    match t.node? nameIdx with
    | none => none
    | some nm =>
      some ⟨controllerPath, lineCharAt text nm.start, lineCharAt text nm.stop⟩

/-- Candidate collection of the open-document variant
(`findMethodInController`), which considers method declarations and exported
function declarations but not property declarations. -/
def docCands (t : Tree) (m : List Char) : Nat → Nat → List Cand
  | 0, _ => []
  | fuel + 1, i =>
    match t.node? i with
    | none => []
    | some n =>
      let here : List Cand :=
        if n.kind = .methodDeclaration && nameMatches t n m then
          match n.nameNode with
          | some nm => [⟨nm, methodPriority t t.fuel n.parent⟩]
          | none => []
        else if n.kind = .functionDeclaration && nameMatches t n m && n.isExported then
          match n.nameNode with
          | some nm => [⟨nm, 3⟩]
          | none => []
        else []
      here ++ (n.children.map (docCands t m fuel)).flatten

/-- `findMethodInController` on an open document's text. -/
def findMethodInControllerDoc (fs : FileSys) (docText controllerPath m : List Char) :
    Option Loc :=
  let t := fs.parseFn docText
  match (pickBest (docCands t m t.fuel 0)).map (·.nameIdx) with
  | none => none
  | some nameIdx =>
    match t.node? nameIdx with
    | none => none
    | some nm =>
      some ⟨controllerPath, lineCharAt docText nm.start, lineCharAt docText nm.stop⟩

/-! ### Definition resolution -/

/-- `resolveControllerDefinition` (second variant): resolve the controller
path from the bare name; without a truthy method name open the file top,
otherwise locate the method with a file-top fallback. -/
def resolveControllerDefinitionPure (imports : ImportsMap) (fs : FileSys)
    (root controllerName : List Char) (methodName : Option (List Char)) : Option Loc :=
  match resolveControllerPathPure imports fs root controllerName with
  | none => none
  | some controllerPath =>
    match strTruthy methodName with
    | none => some ⟨controllerPath, pos0, pos0⟩
    | some m =>
      match findMethodInControllerFile fs controllerPath m with
      | some l => some l
      | none => some ⟨controllerPath, pos0, pos0⟩

/-- `resolveControllerVariableDefinition` past the variable trace: resolve
the traced import path, then locate the method (via the open document when
one holds the file, else from disk), with a file-top fallback. -/
def resolveControllerVariableDefinitionPure (imports : ImportsMap) (fs : FileSys)
    (root variableName : List Char) (methodName : Option (List Char))
    (tree : Tree) : Option Loc :=
  match findControllerImportPath tree variableName with
  | none => none
  | some importPath =>
    match resolveControllerFromImportPathPure imports fs root importPath with
    | none => none
    | some loc =>
      let controllerPath := loc.path
      match strTruthy methodName with
      | none => some ⟨controllerPath, pos0, pos0⟩
      | some m =>
        let methodLoc :=
          match fs.openDoc controllerPath with
          | some docText => findMethodInControllerDoc fs docText controllerPath m
          | none => findMethodInControllerFile fs controllerPath m
        match methodLoc with
        | some l => some l
        | none => some ⟨controllerPath, pos0, pos0⟩

/-- `resolveRoutesModule`: probe the `#routes/*` mapping's directory, then a
sibling file of the routes file. -/
def resolveRoutesModulePure (imports : ImportsMap) (fs : FileSys)
    (root moduleName filePath : List Char) : Option Loc :=
  let viaMapping : Option Loc :=
    match strTruthy (lookupA imports (str "#routes/*")) with
    | some rm =>
      let basePath := posixResolve root (replaceFirst (str "/*") [] rm)
      (firstExisting fs
        [posixJoin basePath (moduleName ++ str ".ts"),
         posixJoin basePath (moduleName ++ str ".js")]).map
        (fun p => ⟨p, pos0, pos0⟩)
    | none => none
  match viaMapping with
  | some l => some l
  | none =>
    let localPath := posixJoin (posixDirname filePath) (moduleName ++ str ".ts")
    if fs.exists_ localPath then some ⟨localPath, pos0, pos0⟩ else none

/-- Load the alias table (propagating a `statSync` fault and committing the
cache update), then run a table consumer. -/
def withImports (fs : FileSys) (st : CacheState) (root : List Char)
    (k : ImportsMap → Option Loc) : Except Unit (Option Loc) × CacheState :=
  match getPackageImports fs st root with
  | .error e => (.error e, st)
  | .ok (tbl, st', _) => (.ok (k tbl), st')

/-- Stateful `resolveControllerVariableDefinition`: the variable trace runs
before any manifest access. -/
def resolveControllerVariableDefinitionS (fs : FileSys) (st : CacheState)
    (variableName : List Char) (methodName : Option (List Char))
    (root : List Char) (tree : Tree) : Except Unit (Option Loc) × CacheState :=
  match findControllerImportPath tree variableName with
  | none => (.ok none, st)
  | some _ =>
    withImports fs st root fun tbl =>
      resolveControllerVariableDefinitionPure tbl fs root variableName methodName tree

/-- `resolveDefinition`: dispatch on the context, guarding each variant's
payload for truthiness. -/
def resolveDefinitionS (fs : FileSys) (st : CacheState) (ctx : ClickContext)
    (root filePath : List Char) (tree : Tree) : Except Unit (Option Loc) × CacheState :=
  match ctx with
  | .controllerVariable v mn =>
    if v = [] then (.ok none, st)
    else resolveControllerVariableDefinitionS fs st v mn root tree
  | .methodString cn mn =>
    if cn = [] then (.ok none, st)
    else withImports fs st root fun tbl =>
      resolveControllerDefinitionPure tbl fs root cn (some mn)
  | .controllerImportPath p =>
    if p = [] then (.ok none, st)
    else withImports fs st root fun tbl =>
      resolveControllerFromImportPathPure tbl fs root p
  | .routesModule m =>
    if m = [] then (.ok none, st)
    else withImports fs st root fun tbl =>
      resolveRoutesModulePure tbl fs root m filePath

/-! ### The provider entry point -/

/-- The provider's answer: a plain location, or (for a controller-variable
click) a definition link carrying the clicked span as origin. -/
inductive DefResult
  | location (l : Loc)
  | links (originStart originEnd : Pos) (target : Loc)
  deriving DecidableEq, Repr

/-- The body of `provideDefinition` before its `try`/`catch`: locate the
node under the offset, guard the file pattern, find the project root,
classify the click, resolve it, and wrap a controller-variable result into
a definition link with the clicked node's range as origin.  A fault escaping
any step surfaces as `.error` here. -/
def provideDefinitionCore (fs : FileSys) (st : CacheState)
    (filePath : List Char) (offset : Nat) :
    Except Unit (Option DefResult) × CacheState :=
  let text := fs.content filePath
  let tree := fs.parseFn text
  match findNodeAt tree tree.fuel 0 offset with
  | none => (.ok none, st)
  | some nodeIdx =>
    if !isSupportedFile filePath then (.ok none, st)
    else
      match findProjectRoot fs filePath with
      | none => (.ok none, st)
      | some root =>
        match analyzeClickContext tree nodeIdx with
        | none => (.ok none, st)
        | some ctx =>
          match resolveDefinitionS fs st ctx root filePath tree with
          | (.error e, st') => (.error e, st')
          | (.ok res, st') =>
            match res, ctx with
            | some loc, .controllerVariable _ _ =>
              (.ok (some (.links (lineCharAt text (spanStart tree nodeIdx))
                                 (lineCharAt text (spanStop tree nodeIdx)) loc)), st')
            | some loc, _ => (.ok (some (.location loc)), st')
            | none, _ => (.ok none, st')

/-- `provideDefinition` as the host sees it: the whole body runs inside
`try { ... } catch { return null }`, so a fault becomes an absent result
(cache mutations made before the fault persist). -/
def provideDefinition (fs : FileSys) (st : CacheState)
    (filePath : List Char) (offset : Nat) : Option DefResult × CacheState :=
  match provideDefinitionCore fs st filePath offset with
  | (.ok r, st') => (r, st')
  | (.error _, st') => (none, st')

/-! ### Concrete scenario data

The end-to-end scenario of the spec: project root `/proj`, manifest mapping
`#controllers/*` to `./app/controllers/*.js`, a controller file with an
export-default class `UserController` holding a method `index`, and a routes
file binding `UserController` to a dynamic-import factory and registering
`router.get("/users", [UserController, "index"])`.  The arenas below are the
parse trees of the two texts, preorder-numbered, with spans matching the
character offsets of the texts.  The scenario texts use double-quoted string
literals; they occupy exactly the same character offsets as the
single-quoted originals, so all spans coincide. -/

def exRoutesText : List Char :=
  str "const UserController = () => import(\"#controllers/user_controller\")\nrouter.get(\"/users\", [UserController, \"index\"])\n"

def exRoutesTree : Tree :=
  ⟨[ -- 0: source file
    { kind := .other, children := [1, 9], start := 0, stop := 116 },
    -- 1: variable statement
    { kind := .other, parent := some 0, children := [2], start := 0, stop := 67 },
    -- 2: variable declaration list
    { kind := .other, parent := some 1, children := [3], start := 0, stop := 67 },
    -- 3: the declaration binding UserController
    { kind := .variableDeclaration, parent := some 2, children := [4, 5],
      nameNode := some 4, initializer := some 5, start := 6, stop := 67 },
    -- 4: identifier UserController
    { kind := .identifier, text := str "UserController", parent := some 3,
      start := 6, stop := 20 },
    -- 5: the arrow-function factory
    { kind := .arrowFunction, parent := some 3, children := [6],
      initializer := some 6, start := 23, stop := 67 },
    -- 6: the dynamic-import call
    { kind := .callExpression, parent := some 5, children := [7, 8],
      callee := some 7, args := [8], start := 29, stop := 67 },
    -- 7: the import keyword
    { kind := .importKeyword, parent := some 6, start := 29, stop := 35 },
    -- 8: the import path string literal
    { kind := .stringLiteral, text := str "#controllers/user_controller",
      parent := some 6, start := 36, stop := 66 },
    -- 9: expression statement of the route registration
    { kind := .other, parent := some 0, children := [10], start := 68, stop := 115 },
    -- 10: the router.get call
    { kind := .callExpression, parent := some 9, children := [11, 13, 14],
      callee := some 11, args := [13, 14], start := 68, stop := 115 },
    -- 11: the property access router.get
    { kind := .propertyAccess, propName := str "get", parent := some 10,
      children := [12], start := 68, stop := 78 },
    -- 12: identifier router
    { kind := .identifier, text := str "router", parent := some 11,
      start := 68, stop := 74 },
    -- 13: the path string literal
    { kind := .stringLiteral, text := str "/users", parent := some 10,
      start := 79, stop := 87 },
    -- 14: the handler tuple
    { kind := .arrayLiteral, parent := some 10, children := [15, 16],
      args := [15, 16], start := 89, stop := 114 },
    -- 15: identifier UserController inside the tuple
    { kind := .identifier, text := str "UserController", parent := some 14,
      start := 90, stop := 104 },
    -- 16: the method-name string literal
    { kind := .stringLiteral, text := str "index", parent := some 14,
      start := 106, stop := 113 }]⟩

def exCtrlText : List Char :=
  str "export default class UserController \x7b\n  index() \x7b\x7d\n\x7d\n"

def exCtrlTree : Tree :=
  ⟨[ -- 0: source file
    { kind := .other, children := [1], start := 0, stop := 53 },
    -- 1: the export-default class declaration
    { kind := .classDeclaration, parent := some 0, children := [2, 3],
      nameNode := some 2, isExported := true, isDefaultExport := true,
      start := 0, stop := 52 },
    -- 2: identifier UserController
    { kind := .identifier, text := str "UserController", parent := some 1,
      start := 21, stop := 35 },
    -- 3: the method declaration
    { kind := .methodDeclaration, parent := some 1, children := [4],
      nameNode := some 4, start := 40, stop := 50 },
    -- 4: identifier index (the name token)
    { kind := .identifier, text := str "index", parent := some 3,
      start := 40, stop := 45 }]⟩

def exRoutesPath : List Char := str "/proj/start/routes.ts"

def exCtrlPath : List Char := str "/proj/app/controllers/user_controller.ts"

def exPkgPath : List Char := str "/proj/package.json"

def exImports : ImportsMap := [(str "#controllers/*", str "./app/controllers/*.js")]

def emptyTree : Tree := ⟨[]⟩

def exFs : FileSys where
  exists_ := fun p => p = exPkgPath || p = exCtrlPath
  mtimeOf := fun p => if p = exPkgPath then .ok 100 else .error ()
  content := fun p =>
    if p = exRoutesPath then exRoutesText
    else if p = exCtrlPath then exCtrlText
    else []
  manifestOf := fun p => if p = exPkgPath then .ok ⟨some exImports⟩ else .error ()
  parseFn := fun txt =>
    if txt = exRoutesText then exRoutesTree
    else if txt = exCtrlText then exCtrlTree
    else emptyTree
  openDoc := fun _ => none

def st0 : CacheState := {}

/-! ### Specification-side definitions

These restate, in the words of the specification, the properties the claims
compare the source functions against. -/

/-- Rule (a) of the string-literal classification as the spec words it: the
literal is the second element of a two-element array tuple whose first
element is an identifier; gives that identifier's text. -/
def methodStringTupleSpec (t : Tree) (i : Nat) : Option (List Char) :=
  match t.node? i with
  | none => none
  | some n =>
    match n.parent with
    | none => none
    | some p =>
      match t.node? p with
      | none => none
      | some pn =>
        if pn.kind = .arrayLiteral ∧ pn.args.length = 2 ∧ pn.args[1]? = some i then
          match pn.args[0]?.bind t.node? with
          | some c => if c.kind = .identifier then some c.text else none
          | none => none
        else none

/-- The string-literal classification as the spec words it: rule (a) wins
over rule (b), the `#controllers/` prefix test; neither matching gives no
context. -/
def analyzeStringLiteralClickSpec (t : Tree) (i : Nat) : Option ClickContext :=
  match t.node? i with
  | none => none
  | some n =>
    match methodStringTupleSpec t i with
    | some cn => some (.methodString cn n.text)
    | none =>
      if isPreL (str "#controllers/") n.text then
        some (.controllerImportPath n.text)
      else none

/-- Snake-case derivation as the spec words it: insert an underscore at
every lowercase-then-uppercase boundary, then lowercase the result. -/
def snakeSpecCore : List Char → List Char
  | [] => []
  | [c] => [c]
  | c1 :: c2 :: rest =>
    if isLowerAZ c1 && isUpperAZ c2 then c1 :: '_' :: snakeSpecCore (c2 :: rest)
    else c1 :: snakeSpecCore (c2 :: rest)

def snakeSpec (s : List Char) : List Char := toLowerL (snakeSpecCore s)

/-- Bare-name resolution as the claim words it: derive the snake_case name,
probe the six candidates in the exact stated order under the wildcard
alias's base directory, and return the first existing path. -/
def resolveControllerPathSpec (imports : ImportsMap) (fs : FileSys)
    (root controllerName : List Char) : Option (List Char) :=
  match strTruthy (lookupA imports (str "#controllers/*")) with
  | none => none
  | some cm =>
    let basePath := posixResolve root (posixDirname cm)
    let snake := snakeSpec controllerName
    [posixJoin basePath (snake ++ str ".ts"),
     posixJoin basePath (snake ++ str ".js"),
     posixJoin3 basePath controllerName (str "index.ts"),
     posixJoin3 basePath controllerName (str "index.js"),
     posixJoin basePath (controllerName ++ str ".ts"),
     posixJoin basePath (controllerName ++ str ".js")].find?
      (fun p => fs.exists_ p)

/-- The member-locator tie-break as the spec words it: the first candidate
in document order whose priority is less than or equal to every collected
candidate's priority. -/
def selectBestSpec (l : List Cand) : Option Cand :=
  l.find? fun c => l.all fun d => c.priority ≤ d.priority

/-! ### Further concrete scenario data -/

/-- Routes fragment `router.get("/x", Foo)` whose handler argument is a bare
identifier; node 4 is the receiver identifier `router`. -/
def cexBareTree : Tree :=
  ⟨[{ kind := .other, children := [1], start := 0, stop := 22 },
    { kind := .other, parent := some 0, children := [2], start := 0, stop := 21 },
    { kind := .callExpression, parent := some 1, children := [3, 5, 6],
      callee := some 3, args := [5, 6], start := 0, stop := 21 },
    { kind := .propertyAccess, propName := str "get", parent := some 2,
      children := [4], start := 0, stop := 10 },
    { kind := .identifier, text := str "router", parent := some 3,
      start := 0, stop := 6 },
    { kind := .stringLiteral, text := str "/x", parent := some 2,
      start := 11, stop := 15 },
    { kind := .identifier, text := str "Foo", parent := some 2,
      start := 17, stop := 20 }]⟩

/-- Routing call `router.get([A, "x"][0], [C, "m"])`: the first argument
contains its own two-element tuple (node 6, wrapped in an element access,
node 5) while the handler argument is the tuple `[C, "m"]` (node 9).
Node 7 is the identifier `A`; its parent tuple is node 6, which is not the
call's second argument. -/
def nestedTupleTree : Tree :=
  ⟨[{ kind := .other, children := [1] },
    { kind := .other, parent := some 0, children := [2] },
    { kind := .callExpression, parent := some 1, children := [3, 5, 9],
      callee := some 3, args := [5, 9] },
    { kind := .propertyAccess, propName := str "get", parent := some 2,
      children := [4] },
    { kind := .identifier, text := str "router", parent := some 3 },
    { kind := .other, parent := some 2, children := [6] },
    { kind := .arrayLiteral, parent := some 5, children := [7, 8], args := [7, 8] },
    { kind := .identifier, text := str "A", parent := some 6 },
    { kind := .stringLiteral, text := str "x", parent := some 6 },
    { kind := .arrayLiteral, parent := some 2, children := [10, 11],
      args := [10, 11] },
    { kind := .identifier, text := str "C", parent := some 9 },
    { kind := .stringLiteral, text := str "m", parent := some 9 }]⟩

/-- A tuple `["index", Foo]` whose string literal is the first element;
node 2 is that string literal. -/
def firstElemTree : Tree :=
  ⟨[{ kind := .other, children := [1] },
    { kind := .arrayLiteral, parent := some 0, children := [2, 3], args := [2, 3] },
    { kind := .stringLiteral, text := str "index", parent := some 1 },
    { kind := .identifier, text := str "Foo", parent := some 1 }]⟩

/-- A target file with, in document order: an exported (non-default) class
with a method `show`, an export-default class with a method `show`, and an
exported free function `show`.  Node 8 is the default-class method's name
token. -/
def showTree : Tree :=
  ⟨[{ kind := .other, children := [1, 5, 9] },
    { kind := .classDeclaration, parent := some 0, children := [2, 3],
      nameNode := some 2, isExported := true },
    { kind := .identifier, text := str "A", parent := some 1 },
    { kind := .methodDeclaration, parent := some 1, children := [4], nameNode := some 4 },
    { kind := .identifier, text := str "show", parent := some 3 },
    { kind := .classDeclaration, parent := some 0, children := [6, 7],
      nameNode := some 6, isExported := true, isDefaultExport := true },
    { kind := .identifier, text := str "B", parent := some 5 },
    { kind := .methodDeclaration, parent := some 5, children := [8], nameNode := some 8 },
    { kind := .identifier, text := str "show", parent := some 7 },
    { kind := .functionDeclaration, parent := some 0, children := [10],
      nameNode := some 10, isExported := true },
    { kind := .identifier, text := str "show", parent := some 9 }]⟩

/-- Alias table declaring only the `#foo/*` wildcard family. -/
def fooImports : ImportsMap := [(str "#foo/*", str "./app/foo/*.js")]

/-- Filesystem on which `/proj/app/foo/bar.ts` exists. -/
def fooFs : FileSys where
  exists_ := fun p => p = str "/proj/app/foo/bar.ts"
  mtimeOf := fun _ => .error ()
  content := fun _ => []
  manifestOf := fun _ => .error ()
  parseFn := fun _ => emptyTree
  openDoc := fun _ => none

/-- Filesystem whose manifest exists (modification time 5) but holds
malformed JSON: the read-and-parse composite fails. -/
def badManifestFs : FileSys where
  exists_ := fun p => p = exPkgPath
  mtimeOf := fun p => if p = exPkgPath then .ok 5 else .error ()
  content := fun _ => []
  manifestOf := fun _ => .error ()
  parseFn := fun _ => emptyTree
  openDoc := fun _ => none

/-- Filesystem whose manifest exists and parses but has no `imports`
field. -/
def noImportsFs : FileSys where
  exists_ := fun p => p = exPkgPath
  mtimeOf := fun p => if p = exPkgPath then .ok 7 else .error ()
  content := fun _ => []
  manifestOf := fun p => if p = exPkgPath then .ok ⟨none⟩ else .error ()
  parseFn := fun _ => emptyTree
  openDoc := fun _ => none

/-- A supported routes file whose click classifies, over a filesystem where
`package.json` exists for root discovery but `statSync` then faults (the
file vanished between the existence check and the stat). -/
def faultRoutesPath : List Char := str "/p/routes/r.ts"

def faultTree : Tree :=
  ⟨[{ kind := .other, children := [1], start := 0, stop := 16 },
    { kind := .stringLiteral, text := str "#controllers/x", parent := some 0,
      start := 0, stop := 16 }]⟩

def faultFs : FileSys where
  exists_ := fun p => p = str "/p/package.json"
  mtimeOf := fun _ => .error ()
  content := fun _ => []
  manifestOf := fun _ => .error ()
  parseFn := fun _ => faultTree
  openDoc := fun _ => none

/-! ## Helper lemmas -/

theorem isPreL_append (a b : List Char) : isPreL a (a ++ b) = true := by
  induction a with
  | nil => rfl
  | cons c cs ih => simp [isPreL, ih]

theorem isPreL_exists {p s : List Char} (h : isPreL p s = true) :
    ∃ u, s = p ++ u := by
  induction p generalizing s with
  | nil => exact ⟨s, rfl⟩
  | cons c cs ih =>
    cases s with
    | nil => simp [isPreL] at h
    | cons d ds =>
      simp only [isPreL, Bool.and_eq_true, beq_iff_eq] at h
      obtain ⟨u, hu⟩ := ih h.2
      exact ⟨u, by simp [h.1, hu]⟩

theorem isPreL_append_left {a b s : List Char} (h : isPreL (a ++ b) s = true) :
    isPreL a s = true := by
  induction a generalizing s with
  | nil => rfl
  | cons c cs ih =>
    cases s with
    | nil => simp [isPreL] at h
    | cons d ds =>
      simp only [List.cons_append, isPreL, Bool.and_eq_true] at h ⊢
      exact ⟨h.1, ih h.2⟩

theorem hasSub_exists {pat s : List Char} (h : hasSub pat s = true) :
    ∃ pre suf, s = pre ++ (pat ++ suf) := by
  induction s with
  | nil =>
    obtain ⟨u, hu⟩ := isPreL_exists (h : isPreL pat [] = true)
    exact ⟨[], u, hu⟩
  | cons c cs ih =>
    simp only [hasSub, Bool.or_eq_true] at h
    rcases h with h | h
    · obtain ⟨u, hu⟩ := isPreL_exists h
      exact ⟨[], u, hu⟩
    · obtain ⟨pre, suf, hps⟩ := ih h
      exact ⟨c :: pre, suf, by simp [hps]⟩

theorem endsW_drop_slash {pat s : List Char} (h : endsW ('/' :: pat) s = true) :
    endsW pat s = true := by
  unfold endsW at h ⊢
  rw [List.reverse_cons] at h
  exact isPreL_append_left h

theorem replaceFirst_star {pre suf rep : List Char} (h : '*' ∉ pre) :
    replaceFirst ['*'] rep (pre ++ '*' :: suf) = pre ++ (rep ++ suf) := by
  induction pre with
  | nil => simp [replaceFirst, isPreL]
  | cons c cs ih =>
    have hc : c ≠ '*' := fun hcc => h (by simp [hcc])
    have hcs : '*' ∉ cs := fun hm => h (List.mem_cons_of_mem c hm)
    have hbc : ('*' == c) = false := by
      simp only [beq_eq_false_iff_ne, ne_eq]
      exact Ne.symm hc
    have hpre : isPreL ['*'] (c :: (cs ++ '*' :: suf)) = false := by
      simp [isPreL, hbc]
    have hstep : replaceFirst ['*'] rep (c :: (cs ++ '*' :: suf)) =
        if isPreL ['*'] (c :: (cs ++ '*' :: suf)) = true then
          rep ++ (cs ++ '*' :: suf)
        else c :: replaceFirst ['*'] rep (cs ++ '*' :: suf) := rfl
    rw [List.cons_append, hstep, if_neg (by simp [hpre]), ih hcs, List.cons_append]

theorem replaceFirst_js {pre : List Char} (h : '.' ∉ pre) :
    replaceFirst (str ".js") (str ".ts") (pre ++ str ".js") = pre ++ str ".ts" := by
  induction pre with
  | nil => decide
  | cons c cs ih =>
    have hc : c ≠ '.' := fun hcc => h (by simp [hcc])
    have hcs : '.' ∉ cs := fun hm => h (List.mem_cons_of_mem c hm)
    have hbc : ('.' == c) = false := by
      simp only [beq_eq_false_iff_ne, ne_eq]
      exact Ne.symm hc
    have hpre : isPreL (str ".js") (c :: (cs ++ str ".js")) = false := by
      simp [str, isPreL, hbc]
    have hstep : replaceFirst (str ".js") (str ".ts") (c :: (cs ++ str ".js")) =
        if isPreL (str ".js") (c :: (cs ++ str ".js")) = true then
          str ".ts" ++ (c :: (cs ++ str ".js")).drop (str ".js").length
        else c :: replaceFirst (str ".js") (str ".ts") (cs ++ str ".js") := rfl
    rw [List.cons_append, hstep, if_neg (by simp [hpre]), ih hcs, List.cons_append]

theorem snakeSpecCore_cons_upper {c : Char} (hc : isLowerAZ c = false)
    (rest : List Char) : snakeSpecCore (c :: rest) = c :: snakeSpecCore rest := by
  cases rest with
  | nil => rfl
  | cons d ds =>
    have heq : snakeSpecCore (c :: d :: ds) =
        if isLowerAZ c && isUpperAZ d then c :: '_' :: snakeSpecCore (d :: ds)
        else c :: snakeSpecCore (d :: ds) := rfl
    rw [heq, if_neg (by simp [hc])]

theorem snakeStep_eq_core (s : List Char) : snakeStep s = snakeSpecCore s := by
  induction s using snakeStep.induct with
  | case1 => rfl
  | case2 c => rfl
  | case3 c1 c2 rest hcond ih =>
    -- boundary matched: the regex resumes after the matched pair, but the
    -- consumed uppercase character can never begin a new match, so the two
    -- formulations agree
    have hupper : isUpperAZ c2 = true := by
      have hcond2 := hcond
      simp only [Bool.and_eq_true] at hcond2
      exact hcond2.2
    have hlow : isLowerAZ c2 = false := by
      simp only [isUpperAZ, Bool.and_eq_true, decide_eq_true_eq] at hupper
      unfold isLowerAZ
      have hna : ¬ ('a' ≤ c2) := fun hge =>
        absurd (le_trans hge hupper.2) (by decide)
      simp [hna]
    have hl : snakeStep (c1 :: c2 :: rest) =
        if (isLowerAZ c1 && isUpperAZ c2) = true then c1 :: '_' :: c2 :: snakeStep rest
        else c1 :: snakeStep (c2 :: rest) := rfl
    have hr : snakeSpecCore (c1 :: c2 :: rest) =
        if (isLowerAZ c1 && isUpperAZ c2) = true then
          c1 :: '_' :: snakeSpecCore (c2 :: rest)
        else c1 :: snakeSpecCore (c2 :: rest) := rfl
    rw [hl, hr, if_pos hcond, if_pos hcond, snakeSpecCore_cons_upper hlow, ih]
  | case4 c1 c2 rest hcond ih =>
    have hl : snakeStep (c1 :: c2 :: rest) =
        if (isLowerAZ c1 && isUpperAZ c2) = true then c1 :: '_' :: c2 :: snakeStep rest
        else c1 :: snakeStep (c2 :: rest) := rfl
    have hr : snakeSpecCore (c1 :: c2 :: rest) =
        if (isLowerAZ c1 && isUpperAZ c2) = true then
          c1 :: '_' :: snakeSpecCore (c2 :: rest)
        else c1 :: snakeSpecCore (c2 :: rest) := rfl
    rw [hl, hr, if_neg hcond, if_neg hcond, ih]

theorem snakeCase_eq_snakeSpec (s : List Char) : snakeCase s = snakeSpec s := by
  unfold snakeCase snakeSpec
  rw [snakeStep_eq_core]

theorem firstExisting_eq_find? (fs : FileSys) (l : List (List Char)) :
    firstExisting fs l = l.find? (fun p => fs.exists_ p) := by
  induction l with
  | nil => rfl
  | cons p ps ih =>
    unfold firstExisting
    rw [List.find?_cons]
    cases h : fs.exists_ p with
    | true => simp [h]
    | false => simp [h, ih]

theorem pickBest_cons_ne_none (x : Cand) (xs : List Cand) :
    pickBest (x :: xs) ≠ none := by
  cases hx : pickBest xs with
  | none => simp [pickBest, hx]
  | some v =>
    simp only [pickBest, hx]
    by_cases hv : v.priority < x.priority
    · rw [if_pos hv]; simp
    · rw [if_neg hv]; simp

theorem pickBest_mem {l : List Cand} {c : Cand} (h : pickBest l = some c) : c ∈ l := by
  induction l generalizing c with
  | nil => simp [pickBest] at h
  | cons a as ih =>
    cases hb : pickBest as with
    | none =>
      simp only [pickBest, hb, Option.some.injEq] at h
      simp [h]
    | some d =>
      simp only [pickBest, hb] at h
      by_cases hlt : d.priority < a.priority
      · rw [if_pos hlt] at h
        simp only [Option.some.injEq] at h
        exact List.mem_cons_of_mem a (h ▸ ih hb)
      · rw [if_neg hlt] at h
        simp only [Option.some.injEq] at h
        simp [h]

theorem pickBest_min {l : List Cand} {c : Cand} (h : pickBest l = some c) :
    ∀ d ∈ l, c.priority ≤ d.priority := by
  induction l generalizing c with
  | nil => simp [pickBest] at h
  | cons a as ih =>
    cases hb : pickBest as with
    | none =>
      have hnil : as = [] := by
        cases as with
        | nil => rfl
        | cons x xs => exact absurd hb (pickBest_cons_ne_none x xs)
      simp only [pickBest, hb, Option.some.injEq] at h
      subst hnil
      intro e he
      rcases List.mem_cons.mp he with rfl | he2
      · exact le_of_eq (congrArg Cand.priority h.symm)
      · simp at he2
    | some d =>
      simp only [pickBest, hb] at h
      by_cases hlt : d.priority < a.priority
      · rw [if_pos hlt] at h
        simp only [Option.some.injEq] at h
        subst h
        intro e he
        rcases List.mem_cons.mp he with rfl | he2
        · exact le_of_lt hlt
        · exact ih hb e he2
      · rw [if_neg hlt] at h
        simp only [Option.some.injEq] at h
        subst h
        intro e he
        rcases List.mem_cons.mp he with rfl | he2
        · exact le_refl _
        · exact le_trans (not_lt.mp hlt) (ih hb e he2)

theorem pickBest_cons (c : Cand) (cs : List Cand) :
    pickBest (c :: cs) =
      if cs.all (fun d => c.priority ≤ d.priority) then some c else pickBest cs := by
  cases hb : pickBest cs with
  | none =>
    have hnil : cs = [] := by
      cases cs with
      | nil => rfl
      | cons x xs => exact absurd hb (pickBest_cons_ne_none x xs)
    subst hnil
    simp [pickBest]
  | some d =>
    simp only [pickBest, hb]
    by_cases hall : cs.all (fun d => c.priority ≤ d.priority) = true
    · have hd : c.priority ≤ d.priority :=
        of_decide_eq_true (List.all_eq_true.mp hall d (pickBest_mem hb))
      rw [if_neg (not_lt.mpr hd), if_pos hall]
    · obtain ⟨e, he, hlt⟩ : ∃ e ∈ cs, e.priority < c.priority := by
        have hns : ¬ (cs.all fun d => c.priority ≤ d.priority) = true := hall
        rw [List.all_eq_true] at hns
        push_neg at hns
        obtain ⟨e, he, hne⟩ := hns
        refine ⟨e, he, ?_⟩
        refine not_le.mp fun hle => hne ?_
        simp [hle]
      have hdc : d.priority < c.priority :=
        lt_of_le_of_lt (pickBest_min hb e he) hlt
      rw [if_pos hdc, if_neg hall]

theorem find?_congr_mem {l : List Cand} {p q : Cand → Bool}
    (h : ∀ x ∈ l, p x = q x) : l.find? p = l.find? q := by
  induction l with
  | nil => rfl
  | cons a as ih =>
    rw [List.find?_cons, List.find?_cons, h a (List.mem_cons_self a as)]
    cases q a with
    | true => rfl
    | false => exact ih fun x hx => h x (List.mem_cons_of_mem a hx)

theorem splitC_cons (c : Char) (cs : List Char) :
    splitC (c :: cs) =
      if c = '/' then [] :: splitC cs
      else match splitC cs with
        | s :: ss => (c :: s) :: ss
        | [] => [[c]] := rfl

theorem splitC_ne_nil (s : List Char) : splitC s ≠ [] := by
  cases s with
  | nil => simp [splitC]
  | cons c cs =>
    rw [splitC_cons]
    by_cases hc : c = '/'
    · rw [if_pos hc]; simp
    · rw [if_neg hc]
      cases h : splitC cs <;> simp

theorem splitC_append_slash (x r : List Char) :
    splitC (x ++ '/' :: r) = splitC x ++ splitC r := by
  induction x with
  | nil =>
    rw [List.nil_append, splitC_cons, if_pos rfl]
    rfl
  | cons c cs ih =>
    rw [List.cons_append, splitC_cons, splitC_cons c cs]
    by_cases hc : c = '/'
    · rw [if_pos hc, if_pos hc, ih]
      rfl
    · rw [if_neg hc, if_neg hc, ih]
      cases h : splitC cs with
      | nil => exact absurd h (splitC_ne_nil cs)
      | cons s ss => rfl

theorem splitC_no_slash {s : List Char} (h : '/' ∉ s) : splitC s = [s] := by
  induction s with
  | nil => rfl
  | cons c cs ih =>
    have hc : c ≠ '/' := fun hcc => h (by simp [hcc])
    have hcs : '/' ∉ cs := fun hm => h (List.mem_cons_of_mem c hm)
    rw [splitC_cons, if_neg hc, ih hcs]

theorem wf_parent_lt {t : Tree} (hwf : wfTree t = true) {i p : Nat} {n : TsNode}
    (hi : t.node? i = some n) (hp : n.parent = some p) : p < i := by
  have hlen : i < t.nodes.length := (List.getElem?_eq_some.mp hi).1
  have hall := List.all_eq_true.mp hwf i (List.mem_range.mpr hlen)
  rw [show t.nodes[i]? = some n from hi] at hall
  simp only [hp, Bool.and_eq_true, decide_eq_true_eq] at hall
  exact hall.1

theorem wf_args_parent {t : Tree} (hwf : wfTree t = true) {i j : Nat} {n : TsNode}
    (hi : t.node? i = some n) (hj : j ∈ n.args) :
    ∃ m, t.node? j = some m ∧ m.parent = some i := by
  have hlen : i < t.nodes.length := (List.getElem?_eq_some.mp hi).1
  have hall := List.all_eq_true.mp hwf i (List.mem_range.mpr hlen)
  rw [show t.nodes[i]? = some n from hi] at hall
  simp only [Bool.and_eq_true] at hall
  have hargs := List.all_eq_true.mp hall.2 j hj
  cases hjm : t.nodes[j]? with
  | none => rw [hjm] at hargs; simp at hargs
  | some m =>
    rw [hjm] at hargs
    simp only [beq_iff_eq] at hargs
    exact ⟨m, hjm, hargs⟩

theorem idxOf?_getElem {x : Nat} {l : List Nat} {k : Nat} (h : idxOf? x l = some k) :
    l[k]? = some x := by
  induction l generalizing k with
  | nil => simp [idxOf?] at h
  | cons y ys ih =>
    have hstep : idxOf? x (y :: ys) =
        if y = x then some 0 else (idxOf? x ys).map (· + 1) := rfl
    rw [hstep] at h
    by_cases hy : y = x
    · rw [if_pos hy] at h
      simp only [Option.some.injEq] at h
      subst h
      simp [hy]
    · rw [if_neg hy] at h
      cases hr : idxOf? x ys with
      | none => rw [hr] at h; simp at h
      | some k2 =>
        rw [hr] at h
        simp only [Option.map_some', Option.some.injEq] at h
        subst h
        simpa using ih hr

theorem lookupA_setA {α : Type} (l : List (List Char × α)) (k : List Char) (v : α) :
    lookupA (setA l k v) k = some v := by
  induction l with
  | nil => simp [setA, lookupA]
  | cons kv rest ih =>
    obtain ⟨k2, v2⟩ := kv
    by_cases hk : k2 = k
    · simp [setA, hk, lookupA]
    · simp [setA, hk, lookupA, ih]

theorem posixNormalize_cons_slash (q : List Char) :
    posixNormalize ('/' :: q) =
      '/' :: joinSegs (normSegs true [] (splitC ('/' :: q))) := rfl

theorem resolve_controllers_seg {s : List Char} (hs : '/' ∉ s) (h0 : s ≠ [])
    (h1 : s ≠ ['.']) (h2 : s ≠ ['.', '.']) :
    posixResolve (str "/proj") (str "./app/controllers/" ++ s) =
      str "/proj/app/controllers/" ++ s := by
  unfold posixResolve
  rw [if_neg (show ¬ (str "./app/controllers/" ++ s).head? = some '/' from by
    rw [show (str "./app/controllers/" ++ s).head? = some '.' from rfl]
    decide)]
  rw [show str "/proj" ++ '/' :: (str "./app/controllers/" ++ s) =
      '/' :: (str "proj/./app/controllers" ++ '/' :: s) from rfl]
  rw [posixNormalize_cons_slash]
  rw [show splitC ('/' :: (str "proj/./app/controllers" ++ '/' :: s)) =
      [] :: splitC (str "proj/./app/controllers" ++ '/' :: s) from by
    rw [splitC_cons, if_pos rfl]]
  rw [splitC_append_slash, splitC_no_slash hs]
  rw [show splitC (str "proj/./app/controllers") =
      [str "proj", ['.'], str "app", str "controllers"] from by decide]
  rw [show normSegs true []
        ([] :: ([str "proj", ['.'], str "app", str "controllers"] ++ [s])) =
      normSegs true [str "controllers", str "app", str "proj"] [s] from rfl]
  rw [show normSegs true [str "controllers", str "app", str "proj"] [s] =
      if s = [] ∨ s = ['.'] then [str "proj", str "app", str "controllers"]
      else if s = ['.', '.'] then [str "proj", str "app"]
      else [str "proj", str "app", str "controllers", s] from rfl]
  rw [if_neg (by
    intro hor
    rcases hor with h | h
    · exact h0 h
    · exact h1 h), if_neg h2]
  rfl

theorem tupleHitCtrl_some {t : Tree} {node : Nat} {n : TsNode} {txt : List Char}
    (h : tupleHitCtrl t node n = some txt) :
    n.kind = .arrayLiteral ∧ n.args.length = 2 ∧ idxOf? node n.args = some 1 ∧
    ∃ a c, n.args[0]? = some a ∧ t.node? a = some c ∧ c.kind = .identifier ∧
      txt = c.text := by
  unfold tupleHitCtrl at h
  by_cases hcond : n.kind = .arrayLiteral ∧ n.args.length = 2 ∧
      idxOf? node n.args = some 1
  · rw [if_pos hcond] at h
    refine ⟨hcond.1, hcond.2.1, hcond.2.2, ?_⟩
    cases ha : n.args[0]?.bind t.node? with
    | none => rw [ha] at h; simp at h
    | some c =>
      rw [ha] at h
      dsimp only at h
      by_cases hid : c.kind = .identifier
      · rw [if_pos hid] at h
        simp only [Option.some.injEq] at h
        obtain ⟨a, ha0, hac⟩ := Option.bind_eq_some.mp ha
        exact ⟨a, c, ha0, hac, hid, h.symm⟩
      · rw [if_neg hid] at h; exact absurd h (by simp)
  · rw [if_neg hcond] at h; exact absurd h (by simp)

theorem tupleHitCtrl_eq_some {t : Tree} {node : Nat} {n : TsNode} {a : Nat}
    {c : TsNode} (hk : n.kind = .arrayLiteral) (hl : n.args.length = 2)
    (hidx : idxOf? node n.args = some 1) (ha : n.args[0]? = some a)
    (hc : t.node? a = some c) (hcid : c.kind = .identifier) :
    tupleHitCtrl t node n = some c.text := by
  unfold tupleHitCtrl
  rw [if_pos ⟨hk, hl, hidx⟩,
      show n.args[0]?.bind t.node? = some c from by rw [ha]; exact hc]
  dsimp only
  rw [if_pos hcid]

theorem tupleHitCtrl_not_array {t : Tree} {node : Nat} {n : TsNode}
    (h : n.kind ≠ .arrayLiteral) : tupleHitCtrl t node n = none := by
  unfold tupleHitCtrl
  rw [if_neg (fun hc => h hc.1)]

theorem tupleWalk_sound {t : Tree} (hwf : wfTree t = true) {i : Nat} :
    ∀ fuel cur txt, tupleWalk t i fuel (some cur) = some txt →
      methodStringTupleSpec t i = some txt := by
  intro fuel
  induction fuel with
  | zero => intro cur txt h; simp [tupleWalk] at h
  | succ fuel ih =>
    intro cur txt h
    have e1 : tupleWalk t i (fuel + 1) (some cur) =
        match t.node? cur with
        | none => none
        | some n =>
          match tupleHitCtrl t i n with
          | some txt2 => some txt2
          | none => tupleWalk t i fuel n.parent := rfl
    rw [e1] at h
    cases hcur : t.node? cur with
    | none => rw [hcur] at h; simp at h
    | some n =>
      rw [hcur] at h
      dsimp only at h
      cases hhit : tupleHitCtrl t i n with
      | some txt2 =>
        rw [hhit] at h
        dsimp only at h
        simp only [Option.some.injEq] at h
        subst h
        obtain ⟨hk, hl, hidx, a, c, ha0, hac, hcid, htxt⟩ := tupleHitCtrl_some hhit
        have hi1 : n.args[1]? = some i := idxOf?_getElem hidx
        have himem : i ∈ n.args := List.getElem?_mem hi1
        obtain ⟨m, hm, hmp⟩ := wf_args_parent hwf hcur himem
        simp only [methodStringTupleSpec, hm, hmp, hcur, hk, hl, hi1, and_self,
                   if_true, ha0, Option.some_bind, hac, hcid, htxt]
      | none =>
        rw [hhit] at h
        dsimp only at h
        cases hpar : n.parent with
        | none => rw [hpar] at h; simp [tupleWalk] at h
        | some p => rw [hpar] at h; exact ih p txt h

theorem tupleWalk_two_step {t : Tree} {i p fuel : Nat} {n pn : TsNode}
    {txt : List Char} (hi : t.node? i = some n) (hnk : tupleHitCtrl t i n = none)
    (hp : n.parent = some p) (hpn : t.node? p = some pn)
    (hhit : tupleHitCtrl t i pn = some txt) :
    tupleWalk t i (fuel + 2) (some i) = some txt := by
  have e1 : tupleWalk t i (fuel + 2) (some i) =
      match t.node? i with
      | none => none
      | some m =>
        match tupleHitCtrl t i m with
        | some txt2 => some txt2
        | none => tupleWalk t i (fuel + 1) m.parent := rfl
  rw [e1]
  simp only [hi, hnk, hp]
  have e2 : tupleWalk t i (fuel + 1) (some p) =
      match t.node? p with
      | none => none
      | some m =>
        match tupleHitCtrl t i m with
        | some txt2 => some txt2
        | none => tupleWalk t i fuel m.parent := rfl
  rw [e2]
  simp only [hpn, hhit]

theorem tupleWalk_complete {t : Tree} {i : Nat} {n : TsNode}
    (hi : t.node? i = some n) (hk : n.kind = .stringLiteral) {txt : List Char}
    (hs : methodStringTupleSpec t i = some txt) :
    isMethodStringInTuple t i = some txt := by
  unfold methodStringTupleSpec at hs
  rw [hi] at hs
  dsimp only at hs
  cases hp : n.parent with
  | none => rw [hp] at hs; simp at hs
  | some p =>
    rw [hp] at hs
    dsimp only at hs
    cases hpn : t.node? p with
    | none => rw [hpn] at hs; simp at hs
    | some pn =>
      rw [hpn] at hs
      dsimp only at hs
      by_cases hcond : pn.kind = .arrayLiteral ∧ pn.args.length = 2 ∧
          pn.args[1]? = some i
      · rw [if_pos hcond] at hs
        cases ha : pn.args[0]?.bind t.node? with
        | none => rw [ha] at hs; simp at hs
        | some c =>
          rw [ha] at hs
          dsimp only at hs
          by_cases hcid : c.kind = .identifier
          · rw [if_pos hcid] at hs
            simp only [Option.some.injEq] at hs
            obtain ⟨a, ha0, hac⟩ := Option.bind_eq_some.mp ha
            have hai : a ≠ i := by
              intro hcc
              subst hcc
              rw [hi] at hac
              injection hac with hcn
              subst hcn
              rw [hk] at hcid
              exact absurd hcid (by decide)
            obtain ⟨a0, a1, hl2⟩ := List.length_eq_two.mp hcond.2.1
            have ha0v : a0 = a := by
              have := ha0
              rw [hl2] at this
              simpa using this
            have ha1v : a1 = i := by
              have := hcond.2.2
              rw [hl2] at this
              simpa using this
            have hidx : idxOf? i pn.args = some 1 := by
              rw [hl2, ha0v, ha1v]
              simp [idxOf?, hai]
            have hfirst : tupleHitCtrl t i n = none :=
              tupleHitCtrl_not_array (by rw [hk]; decide)
            have hhit : tupleHitCtrl t i pn = some c.text :=
              tupleHitCtrl_eq_some hcond.1 hcond.2.1 hidx ha0 hac hcid
            have hlen : i < t.nodes.length := (List.getElem?_eq_some.mp hi).1
            obtain ⟨k, hk2⟩ : ∃ k, t.nodes.length + 1 = k + 2 :=
              ⟨t.nodes.length - 1, by omega⟩
            unfold isMethodStringInTuple Tree.fuel
            rw [hk2, tupleWalk_two_step hi hfirst hp hpn hhit, hs]
          · rw [if_neg hcid] at hs; simp at hs
      · rw [if_neg hcond] at hs; simp at hs

theorem isMethodStringInTuple_eq_spec {t : Tree} (hwf : wfTree t = true) {i : Nat}
    {n : TsNode} (hi : t.node? i = some n) (hk : n.kind = .stringLiteral) :
    isMethodStringInTuple t i = methodStringTupleSpec t i := by
  cases hw : isMethodStringInTuple t i with
  | some txt => exact (tupleWalk_sound hwf _ _ _ hw).symm
  | none =>
    cases hs : methodStringTupleSpec t i with
    | none => rfl
    | some txt =>
      have := tupleWalk_complete hi hk hs
      rw [hw] at this
      cases this

theorem pickBest_eq_selectBestSpec (l : List Cand) : pickBest l = selectBestSpec l := by
  induction l with
  | nil => rfl
  | cons c cs ih =>
    rw [pickBest_cons]
    unfold selectBestSpec
    rw [List.find?_cons]
    have hPc : ((c :: cs).all fun d => c.priority ≤ d.priority)
        = (cs.all fun d => c.priority ≤ d.priority) := by
      simp [List.all_cons]
    by_cases hall : (cs.all fun d => c.priority ≤ d.priority) = true
    · rw [if_pos hall, hPc, hall]
    · have hf : (cs.all fun d => c.priority ≤ d.priority) = false := by
        revert hall
        cases (cs.all fun d => c.priority ≤ d.priority) <;> simp
      rw [if_neg hall, hPc, hf, ih]
      show selectBestSpec cs =
        cs.find? fun x => (c :: cs).all fun d => x.priority ≤ d.priority
      unfold selectBestSpec
      obtain ⟨e, he, hlt⟩ : ∃ e ∈ cs, e.priority < c.priority := by
        have hns : ¬ (cs.all fun d => c.priority ≤ d.priority) = true := hall
        rw [List.all_eq_true] at hns
        push_neg at hns
        obtain ⟨e, he, hne⟩ := hns
        refine ⟨e, he, ?_⟩
        refine not_le.mp fun hle => hne ?_
        simp [hle]
      refine find?_congr_mem fun x hx => ?_
      simp only [List.all_cons]
      cases hq : (cs.all fun d => x.priority ≤ d.priority) with
      | false => simp
      | true =>
        have hxe : x.priority ≤ e.priority :=
          of_decide_eq_true (List.all_eq_true.mp hq e he)
        have hxc : x.priority ≤ c.priority := le_trans hxe (le_of_lt hlt)
        simp [hxc]

/-! ## Round-trip resolution through the wildcard mapping -/

theorem wildcard_round_trip_controllers (fs : FileSys) (modName : List Char)
    (hslash : '/' ∉ modName) (hdot : '.' ∉ modName) (hstar : '*' ∉ modName)
    (hex : fs.exists_ (str "/proj/app/controllers/" ++ (modName ++ str ".ts"))
      = true) :
    resolveControllerFromImportPathPure exImports fs (str "/proj")
      (str "#controllers/" ++ modName) =
      some ⟨str "/proj/app/controllers/" ++ (modName ++ str ".ts"), pos0, pos0⟩ := by
  have hkeyne : ¬ (str "#controllers/*" = str "#controllers/" ++ modName) := by
    intro he
    rw [show str "#controllers/*" = str "#controllers/" ++ ['*'] from rfl] at he
    have hme := List.append_cancel_left he
    exact hstar (by rw [← hme]; simp)
  have hlk : lookupA exImports (str "#controllers/" ++ modName) = none := by
    show (if str "#controllers/*" = str "#controllers/" ++ modName
          then some (str "./app/controllers/*.js")
          else lookupA [] (str "#controllers/" ++ modName)) = none
    rw [if_neg hkeyne]
    rfl
  have hs' : '/' ∉ modName ++ str ".js" := by
    intro hm
    rcases List.mem_append.mp hm with h | h
    · exact hslash h
    · revert h; decide
  have h0' : modName ++ str ".js" ≠ [] := by
    intro h
    have hl := congrArg List.length h
    simp [str] at hl
  have h1' : modName ++ str ".js" ≠ ['.'] := by
    intro h
    have hl := congrArg List.length h
    simp [str] at hl
  have h2' : modName ++ str ".js" ≠ ['.', '.'] := by
    intro h
    have hl := congrArg List.length h
    simp [str] at hl
  have hdotpre : '.' ∉ str "/proj/app/controllers/" ++ modName := by
    intro hm
    rcases List.mem_append.mp hm with h | h
    · revert h; decide
    · exact hdot h
  have houter : strTruthy (lookupA exImports (str "#controllers/" ++ modName))
      = none := by rw [hlk]; rfl
  have hinner : strTruthy (lookupA exImports (str "#controllers/*")) =
      some (str "./app/controllers/*.js") := by decide
  unfold resolveControllerFromImportPathPure
  simp only [houter, hinner]
  rw [if_pos (isPreL_append (str "#controllers/") modName)]
  rw [show (str "#controllers/" ++ modName).drop (str "#controllers/").length
      = modName from List.drop_left _ _]
  rw [if_pos (show (str "./app/controllers/*.js").contains '*' = true from by
    decide)]
  rw [show (str "*") = ['*'] from rfl,
      show str "./app/controllers/*.js" =
        str "./app/controllers/" ++ '*' :: str ".js" from rfl]
  rw [replaceFirst_star (by decide)]
  rw [resolve_controllers_seg hs' h0' h1' h2']
  unfold extCandidates
  rw [show str "/proj/app/controllers/" ++ (modName ++ str ".js") =
      (str "/proj/app/controllers/" ++ modName) ++ str ".js" from
      (List.append_assoc _ _ _).symm]
  rw [replaceFirst_js hdotpre]
  rw [List.append_assoc]
  unfold firstExisting
  rw [if_pos hex]
  rfl

/-! ## Case lemmas for the alias-table cache -/

theorem gpi_err {fs : FileSys} {st : CacheState} {root : List Char} {e : Unit}
    (hm : fs.mtimeOf (pkgJsonPath root) = .error e) :
    getPackageImports fs st root = .error e := by
  unfold getPackageImports
  dsimp only
  rw [hm]

theorem gpi_hit {fs : FileSys} {st : CacheState} {root : List Char} {m : Int}
    (hm : fs.mtimeOf (pkgJsonPath root) = .ok m)
    (hts : lookupA st.timestamps (pkgJsonPath root) = some m) :
    getPackageImports fs st root =
      .ok ((lookupA st.importsCache (pkgJsonPath root)).getD [], st, 0) := by
  unfold getPackageImports
  dsimp only
  rw [hm]
  dsimp only
  rw [if_neg (by simp [hts])]

theorem gpi_miss_ok {fs : FileSys} {st : CacheState} {root : List Char} {m : Int}
    {pkg : PkgJson} (hm : fs.mtimeOf (pkgJsonPath root) = .ok m)
    (hts : lookupA st.timestamps (pkgJsonPath root) ≠ some m)
    (hman : fs.manifestOf (pkgJsonPath root) = .ok pkg) :
    getPackageImports fs st root =
      .ok (pkg.imports.getD [],
        ⟨setA st.importsCache (pkgJsonPath root) (pkg.imports.getD []),
         setA st.timestamps (pkgJsonPath root) m⟩, 1) := by
  unfold getPackageImports
  dsimp only
  rw [hm]
  dsimp only
  rw [if_pos hts, hman]
  dsimp only
  rw [lookupA_setA]
  rfl

theorem gpi_miss_err {fs : FileSys} {st : CacheState} {root : List Char} {m : Int}
    {e : Unit} (hm : fs.mtimeOf (pkgJsonPath root) = .ok m)
    (hts : lookupA st.timestamps (pkgJsonPath root) ≠ some m)
    (hman : fs.manifestOf (pkgJsonPath root) = .error e) :
    getPackageImports fs st root =
      .ok ([], ⟨setA st.importsCache (pkgJsonPath root) [], st.timestamps⟩, 1) := by
  unfold getPackageImports
  dsimp only
  rw [hm]
  dsimp only
  rw [if_pos hts, hman]
  dsimp only
  rw [lookupA_setA]
  rfl

/-! ## The claims -/

/-- Claim C1: end-to-end resolution scenario.  With the project root at
`/proj`, the manifest mapping `#controllers/*` to `./app/controllers/*.js`,
the controller file `app/controllers/user_controller.ts` existing with an
export-default class `UserController` holding a method `index`, and the
routes file binding `UserController` to a dynamic-import factory, a click at
offset 108 (inside the string literal containing `index`) resolves to the
`index` method name token's line/character span inside `user_controller.ts`
(node 4 of the controller tree), and a click at offset 95 (inside the tuple
identifier `UserController`) resolves to the same file — the produced
controller-variable context carries no method name, so the target is the top
of the file, delivered as a definition link whose origin is the clicked
identifier's span. -/
theorem end_to_end_click_resolution :
    (provideDefinition exFs st0 exRoutesPath 108).1 =
      some (.location ⟨exCtrlPath,
        lineCharAt exCtrlText (spanStart exCtrlTree 4),
        lineCharAt exCtrlText (spanStop exCtrlTree 4)⟩) ∧
    lineCharAt exCtrlText (spanStart exCtrlTree 4) = ⟨1, 2⟩ ∧
    (provideDefinition exFs st0 exRoutesPath 95).1 =
      some (.links ⟨1, 22⟩ ⟨1, 36⟩ ⟨exCtrlPath, ⟨0, 0⟩, ⟨0, 0⟩⟩) := by
  refine ⟨by decide, by decide, by decide⟩

/-- Claim C2: on every well-formed arena, the classification of a located
string-literal node equals the specification's ordered rules — first the
two-element-tuple second-element rule producing `MethodString` from the
first-element identifier's text and the literal's text, then the
`#controllers/` prefix rule producing `ControllerImportPath`, and no context
otherwise; in particular (second conjunct) a string literal that is the
first element of a tuple yields no context. -/
theorem string_literal_classification_order :
    (∀ (t : Tree) (i : Nat) (n : TsNode), wfTree t = true → t.node? i = some n →
      n.kind = .stringLiteral →
      analyzeStringLiteralClick t i = analyzeStringLiteralClickSpec t i) ∧
    analyzeStringLiteralClick firstElemTree 2 = none := by
  constructor
  · intro t i n hwf hi hk
    unfold analyzeStringLiteralClick analyzeStringLiteralClickSpec
    rw [isMethodStringInTuple_eq_spec hwf hi hk]
  · decide

theorem string_literal_classification_order_witness :
    analyzeStringLiteralClick exRoutesTree 16 =
      analyzeStringLiteralClickSpec exRoutesTree 16 :=
  string_literal_classification_order.1 exRoutesTree 16
    { kind := .stringLiteral, text := str "index", parent := some 14,
      start := 106, stop := 113 }
    (by decide) (by decide) rfl

/-- Claim C3 counterexample: in `router.get("/x", Foo)` the clicked
identifier `router` (node 4) is neither the first element of a handler tuple
(its parent, node 3, is a property access) nor the bare-identifier second
argument itself (the call's arguments are nodes 5 and 6), yet the
classification produces a `ControllerVariable` context named `Foo` — so the
claim's "only when" condition is false on the code. -/
theorem controller_variable_context_cex :
    analyzeIdentifierClick cexBareTree 4 =
      some (.controllerVariable (str "Foo") none) ∧
    textOf cexBareTree 4 = str "router" ∧
    findRouterCall cexBareTree 4 = some 2 ∧
    (cexBareTree.node? 2).map (·.args) = some [5, 6] ∧
    ((cexBareTree.node? 4).bind (·.parent)) = some 3 ∧
    (cexBareTree.node? 3).map (·.kind) = some .propertyAccess := by
  refine ⟨by decide, by decide, by decide, by decide, by decide, by decide⟩

/-- Claim C3 as amended: `analyzeIdentifierClick` produces a
`ControllerVariable` context exactly when the clicked identifier has an
enclosing routing-verb call whose handler argument parses, and either the
handler parses as a bare identifier with a non-empty name — then the
context carries that argument's name, whatever identifier in the call was
clicked — or, otherwise, the clicked identifier is the first element of its
own two-element parent array literal whose second element is a string
literal — then the context carries the clicked identifier's own text.  The
second conjunct shows the parent-tuple condition is keyed on the clicked
node's own parent, which need not be the call's handler argument: in
`router.get([A, "x"][0], [C, "m"])`, clicking `A` (node 7, whose parent
tuple node 6 differs from the call's second argument node 9) still produces
a `ControllerVariable` context named `A`. -/
theorem controller_variable_context_amended :
    (∀ (t : Tree) (i : Nat) (v : List Char) (mn : Option (List Char)),
      analyzeIdentifierClick t i = some (.controllerVariable v mn) ↔
        (mn = none ∧ ∃ c h, findRouterCall t i = some c ∧
          extractHandlerFromRouterCall t c = some h ∧
          ((h = .controllerVariable v ∧ v ≠ []) ∨
           ((∀ w, h = .controllerVariable w → w = []) ∧
            tupleFirstCond t i = true ∧ v = textOf t i)))) ∧
    (analyzeIdentifierClick nestedTupleTree 7 =
        some (.controllerVariable (str "A") none) ∧
      (nestedTupleTree.node? 2).map (·.args) = some [5, 9] ∧
      ((nestedTupleTree.node? 7).bind (·.parent)) = some 6 ∧
      (6 : Nat) ≠ 9) := by
  constructor
  · intro t i v mn
    unfold analyzeIdentifierClick
    dsimp only
    cases hrc : findRouterCall t i with
    | none =>
      cases hg : findRoutesGroupCall t i <;> simp
    | some c =>
      dsimp only
      cases hh : extractHandlerFromRouterCall t c with
      | none =>
        dsimp only
        cases hg : findRoutesGroupCall t i <;> simp [hh]
      | some h =>
        dsimp only
        cases h with
        | controller cn mn2 =>
          dsimp only
          cases htf : tupleFirstCond t i with
          | true => simp [hh, htf, eq_comm, and_comm]
          | false =>
            cases hg : findRoutesGroupCall t i <;> simp [hh, htf]
        | controllerVariable v2 =>
          dsimp only
          by_cases hv : v2 ≠ []
          · rw [if_pos hv]
            dsimp only
            constructor
            · intro hres
              injection hres with h3
              injection h3 with hveq hmn
              subst hveq
              subst hmn
              exact ⟨rfl, c, .controllerVariable v2, rfl, hh,
                Or.inl ⟨rfl, hv⟩⟩
            · rintro ⟨hmn, c2, h2, hc2, hh2, hdisj⟩
              injection hc2 with hc2e
              subst hc2e
              rw [hh] at hh2
              injection hh2 with hh2e
              subst hh2e
              rcases hdisj with ⟨hveq, hvne⟩ | ⟨hempty, htf2, hvtext⟩
              · injection hveq with hve
                subst hve
                subst hmn
                rfl
              · exact absurd (hempty v2 rfl) hv
          · rw [if_neg hv]
            push_neg at hv
            subst hv
            cases htf : tupleFirstCond t i with
            | true =>
              simp [hh, htf, eq_comm, and_comm]
            | false =>
              cases hg : findRoutesGroupCall t i <;> simp [hh, htf]
  · exact ⟨by decide, by decide, by decide, by decide⟩

theorem controller_variable_context_amended_witness :
    analyzeIdentifierClick cexBareTree 4 =
      some (.controllerVariable (str "Foo") none) :=
  (controller_variable_context_amended.1 cexBareTree 4 (str "Foo") none).mpr
    ⟨rfl, 2, .controllerVariable (str "Foo"), by decide, by decide,
      Or.inl ⟨rfl, by decide⟩⟩

/-- Claim C4 counterexample: with the alias table declaring only
`#foo/* → ./app/foo/*.js` and the file `/proj/app/foo/bar.ts` existing,
resolving `#foo/bar` returns no result at all — wildcard substitution is
applied only to the `#controllers/` namespace, so no `.ts` candidate is ever
computed for the `#foo` family. -/
theorem wildcard_foo_family_cex :
    resolveControllerFromImportPathPure fooImports fooFs (str "/proj")
      (str "#foo/bar") = none ∧
    fooFs.exists_ (str "/proj/app/foo/bar.ts") = true := by
  refine ⟨by decide, by decide⟩

theorem wildcard_round_trip_controllers_witness :
    resolveControllerFromImportPathPure exImports exFs (str "/proj")
      (str "#controllers/" ++ str "user_controller") =
      some ⟨str "/proj/app/controllers/" ++ (str "user_controller" ++ str ".ts"),
        pos0, pos0⟩ :=
  wildcard_round_trip_controllers exFs (str "user_controller")
    (by decide) (by decide) (by decide) (by decide)

/-- Claim C5: bare controller-name resolution equals the specification's
description — derive the snake_case name by inserting an underscore at every
lowercase-then-uppercase boundary and lowercasing, then probe the six
candidates `snake.ts`, `snake.js`, `Name/index.ts`, `Name/index.js`,
`Name.ts`, `Name.js` in that exact order under the wildcard alias's base
directory, returning the first existing path; and the derivation sends
`UserPostController` to `user_post_controller`. -/
theorem bare_controller_name_resolution :
    (∀ (imports : ImportsMap) (fs : FileSys) (root name : List Char),
      resolveControllerPathPure imports fs root name =
        resolveControllerPathSpec imports fs root name) ∧
    snakeCase (str "UserPostController") = str "user_post_controller" := by
  constructor
  · intro imports fs root name
    unfold resolveControllerPathPure resolveControllerPathSpec
    cases strTruthy (lookupA imports (str "#controllers/*")) with
    | none => rfl
    | some cm =>
      dsimp only
      rw [firstExisting_eq_find?, snakeCase_eq_snakeSpec]
  · decide

/-- Claim C6: on the scenario file holding (in document order) a non-default
exported class method `show`, a default-exported class method `show`, and an
exported free function `show`, the member locator collects exactly those
three candidates with priorities 2, 1 and 3 and selects the default-class
method's name token (node 8); and in general the selection rule equals the
specification's tie-break — the first candidate in document order whose
priority is minimal. -/
theorem member_locator_priority :
    bestCands showTree (str "show") showTree.fuel 0 = [⟨4, 2⟩, ⟨8, 1⟩, ⟨10, 3⟩] ∧
    findBestMethodNameNode showTree (str "show") = some 8 ∧
    (∀ l : List Cand, pickBest l = selectBestSpec l) := by
  refine ⟨by decide, by decide, pickBest_eq_selectBestSpec⟩

/-- Claim C7: with an empty alias table — in particular the one loaded from
a manifest that parses but lacks an `imports` field — every resolution
returns no result regardless of the filesystem: import-path resolution
(exact and wildcard) and bare controller-name resolution both fail, and
loading such a manifest (third conjunct) indeed produces the empty table. -/
theorem empty_imports_no_resolution :
    (∀ (fs : FileSys) (root ip : List Char),
      resolveControllerFromImportPathPure [] fs root ip = none) ∧
    (∀ (fs : FileSys) (root name : List Char),
      resolveControllerPathPure [] fs root name = none) ∧
    (∀ (fs : FileSys) (st : CacheState) (root : List Char) (m : Int),
      fs.mtimeOf (pkgJsonPath root) = .ok m →
      lookupA st.timestamps (pkgJsonPath root) ≠ some m →
      fs.manifestOf (pkgJsonPath root) = .ok ⟨none⟩ →
      getPackageImports fs st root =
        .ok ([], ⟨setA st.importsCache (pkgJsonPath root) [],
                  setA st.timestamps (pkgJsonPath root) m⟩, 1)) := by
  refine ⟨?_, ?_, ?_⟩
  · intro fs root ip
    simp [resolveControllerFromImportPathPure, lookupA, strTruthy]
  · intro fs root name
    simp [resolveControllerPathPure, lookupA, strTruthy]
  · intro fs st root m hm hts hman
    rw [gpi_miss_ok hm hts hman]
    rfl

theorem empty_imports_no_resolution_witness :
    getPackageImports noImportsFs st0 (str "/proj") =
      .ok ([], ⟨setA st0.importsCache (pkgJsonPath (str "/proj")) [],
                setA st0.timestamps (pkgJsonPath (str "/proj")) 7⟩, 1) :=
  empty_imports_no_resolution.2.2 noImportsFs st0 (str "/proj") 7
    (by decide) (by decide) (by decide)

/-- Claim C8 counterexample: with a manifest whose parse fails, two
successive calls with an unchanged modification time each perform a parse
attempt (count 1 each, 2 across the two calls), because the failed load does
not record the timestamp — refuting "at most one parse across the two calls,
including the case where the first load failed to parse". -/
theorem alias_cache_reparse_cex :
    getPackageImports badManifestFs st0 (str "/proj") =
      .ok ([], ⟨[(exPkgPath, [])], []⟩, 1) ∧
    getPackageImports badManifestFs ⟨[(exPkgPath, [])], []⟩ (str "/proj") =
      .ok ([], ⟨[(exPkgPath, [])], []⟩, 1) := by
  refine ⟨by decide, by decide⟩

/-- Claim C8 as amended: two successive loads against an unchanged
modification time always yield the same alias table — hence the same
resolution for every import path — and when the manifest parses
successfully, at most one parse attempt happens across the two calls (the
second is a cache hit); only a failed parse is re-attempted, because the
failure path does not record the timestamp. -/
theorem alias_cache_idempotent_amended (fs : FileSys) (st : CacheState)
    (root : List Char) (t1 t2 : ImportsMap) (st1 st2 : CacheState) (n1 n2 : Nat)
    (h1 : getPackageImports fs st root = .ok (t1, st1, n1))
    (h2 : getPackageImports fs st1 root = .ok (t2, st2, n2)) :
    t1 = t2 ∧
    (∀ ip, resolveControllerFromImportPathPure t1 fs root ip =
      resolveControllerFromImportPathPure t2 fs root ip) ∧
    (∀ pkg, fs.manifestOf (pkgJsonPath root) = .ok pkg → n1 + n2 ≤ 1) := by
  cases hm : fs.mtimeOf (pkgJsonPath root) with
  | error e =>
    rw [gpi_err hm] at h1
    cases h1
  | ok m =>
    by_cases hts : lookupA st.timestamps (pkgJsonPath root) = some m
    · rw [gpi_hit hm hts] at h1
      simp only [Except.ok.injEq, Prod.mk.injEq] at h1
      obtain ⟨ht1, hst1, hn1⟩ := h1
      rw [← hst1] at h2
      rw [gpi_hit hm hts] at h2
      simp only [Except.ok.injEq, Prod.mk.injEq] at h2
      obtain ⟨ht2, hst2, hn2⟩ := h2
      have htt : t1 = t2 := by rw [← ht1, ← ht2]
      refine ⟨htt, fun ip => by rw [htt], fun pkg _ => by omega⟩
    · cases hman : fs.manifestOf (pkgJsonPath root) with
      | ok pkg =>
        rw [gpi_miss_ok hm hts hman] at h1
        simp only [Except.ok.injEq, Prod.mk.injEq] at h1
        obtain ⟨ht1, hst1, hn1⟩ := h1
        have hts2 : lookupA st1.timestamps (pkgJsonPath root) = some m := by
          rw [← hst1]
          exact lookupA_setA _ _ _
        rw [gpi_hit hm hts2] at h2
        simp only [Except.ok.injEq, Prod.mk.injEq] at h2
        obtain ⟨ht2, hst2, hn2⟩ := h2
        have hcache : lookupA st1.importsCache (pkgJsonPath root) =
            some (pkg.imports.getD []) := by
          rw [← hst1]
          exact lookupA_setA _ _ _
        have htt : t1 = t2 := by
          rw [← ht1, ← ht2, hcache]
          rfl
        exact ⟨htt, fun ip => by rw [htt], fun pkg2 _ => by omega⟩
      | error e =>
        rw [gpi_miss_err hm hts hman] at h1
        simp only [Except.ok.injEq, Prod.mk.injEq] at h1
        obtain ⟨ht1, hst1, hn1⟩ := h1
        have hts2 : lookupA st1.timestamps (pkgJsonPath root) ≠ some m := by
          rw [← hst1]
          exact hts
        rw [gpi_miss_err hm hts2 hman] at h2
        simp only [Except.ok.injEq, Prod.mk.injEq] at h2
        obtain ⟨ht2, hst2, hn2⟩ := h2
        have htt : t1 = t2 := by rw [← ht1, ← ht2]
        refine ⟨htt, fun ip => by rw [htt], fun pkg2 hpkg => ?_⟩
        simp [hman] at hpkg

theorem alias_cache_idempotent_amended_witness :
    resolveControllerFromImportPathPure exImports exFs (str "/proj")
        (str "#controllers/user_controller") =
      resolveControllerFromImportPathPure exImports exFs (str "/proj")
        (str "#controllers/user_controller") := by
  have h := alias_cache_idempotent_amended exFs st0 (str "/proj")
    exImports exImports
    ⟨[(exPkgPath, exImports)], [(exPkgPath, 100)]⟩
    ⟨[(exPkgPath, exImports)], [(exPkgPath, 100)]⟩ 1 0
    (by decide) (by decide)
  exact h.2.1 (str "#controllers/user_controller")

/-- Claim C9: the resolve request never propagates a fault to its caller —
whenever the provider body faults (here: the manifest `statSync` throwing
after the existence check, modelled as `.error`), the catch converts it to
an absent result. -/
theorem no_unhandled_fault (fs : FileSys) (st : CacheState) (p : List Char)
    (o : Nat) (e : Unit)
    (h : (provideDefinitionCore fs st p o).1 = .error e) :
    (provideDefinition fs st p o).1 = none := by
  unfold provideDefinition
  cases hc : provideDefinitionCore fs st p o with
  | mk r st' =>
    rw [hc] at h
    have hr : r = .error e := h
    rw [hr]

theorem no_unhandled_fault_witness :
    (provideDefinitionCore faultFs st0 faultRoutesPath 3).1 = .error () ∧
    (provideDefinition faultFs st0 faultRoutesPath 3).1 = none :=
  ⟨by decide, no_unhandled_fault faultFs st0 faultRoutesPath 3 () (by decide)⟩

/-- Claim C10: for every request whose file path, after normalization,
neither contains a path component named `routes` as a directory segment
(a non-final segment of the normalized path) nor ends with
`start/routes.ts`, the resolve request returns no result, whatever the
parsed document, cursor offset, cache state or filesystem. -/
theorem unsupported_path_no_result (fs : FileSys) (st : CacheState)
    (p : List Char) (o : Nat)
    (hseg : str "routes" ∉ (splitC (posixNormalize p)).dropLast)
    (hend : endsW (str "start/routes.ts") (posixNormalize p) = false) :
    (provideDefinition fs st p o).1 = none := by
  have hsup : isSupportedFile p = false := by
    unfold isSupportedFile
    dsimp only
    have h1 : hasSub (str "/routes/") (posixNormalize p) = false := by
      cases hh : hasSub (str "/routes/") (posixNormalize p) with
      | false => rfl
      | true =>
        exfalso
        obtain ⟨pre, suf, hps⟩ := hasSub_exists hh
        have hps2 : posixNormalize p = pre ++ '/' :: (str "routes" ++ '/' :: suf) := by
          rw [hps]
          rfl
        have hsplit : splitC (posixNormalize p) =
            splitC pre ++ (str "routes" :: splitC suf) := by
          rw [hps2, splitC_append_slash, splitC_append_slash,
              splitC_no_slash (show ('/' : Char) ∉ str "routes" by decide)]
          rfl
        have hmem : str "routes" ∈ (splitC (posixNormalize p)).dropLast := by
          rw [hsplit]
          rw [List.dropLast_append_of_ne_nil _ (by simp)]
          rw [show (str "routes" :: splitC suf) = [str "routes"] ++ splitC suf
              from rfl]
          rw [List.dropLast_append_of_ne_nil _ (splitC_ne_nil suf)]
          simp
        exact hseg hmem
    have h2 : endsW (str "/start/routes.ts") (posixNormalize p) = false := by
      cases hh : endsW (str "/start/routes.ts") (posixNormalize p) with
      | false => rfl
      | true =>
        exfalso
        have hw : endsW (str "start/routes.ts") (posixNormalize p) = true :=
          endsW_drop_slash
            (show endsW ('/' :: str "start/routes.ts") (posixNormalize p) = true
              from hh)
        rw [hw] at hend
        cases hend
    rw [h1, h2]
    rfl
  unfold provideDefinition provideDefinitionCore
  cases hn : findNodeAt (fs.parseFn (fs.content p))
      (fs.parseFn (fs.content p)).fuel 0 o with
  | none => simp [hn]
  | some idx => simp [hn, hsup]

theorem unsupported_path_no_result_witness :
    (provideDefinition exFs st0 (str "/tmp/foo.ts") 0).1 = none :=
  unsupported_path_no_result exFs st0 (str "/tmp/foo.ts") 0
    (by decide) (by decide)

end AdonisGoto
